import Mathlib

/-!
# Verification of the mtkv3 Golden-Gate domestication pipeline

Shallow embedding of the core pipeline of the `mtkv3` repository
(`flask_backend/services/`): restriction-site detection
(`rs_detector.py`), codon-level mutation generation (`mut_analyzer.py`),
primer design (`primer_designer.py`), PCR-reaction chaining
(`reaction_organizer.py`), sequence preparation
(`sequence_preparator.py`) and the orchestrator (`protocol_maker.py`).

DNA sequences are embedded as `List Char`.  Python `float` quantities
(melting temperature, GC content, codon-usage frequencies) are modelled
as exact rationals built with `Rat.divInt` over integer arithmetic; the
`round(x, n)` calls of the source are modelled by exact half-to-even
rounding of the rational value.  Python exceptions (`IndexError`,
`KeyError`, `ValueError`, Biopython's `TranslationError`) are modelled
with `Option`: a function returns `none` when the source would raise.
-/

namespace MTK

/-- DNA sequences and other Python strings are lists of characters. -/
abbrev Str := List Char

/-- Clamp a (possibly negative) Python slice bound to `[0, len]`,
following Python semantics: a negative bound counts from the end. -/
def pyBound (len : Nat) (i : Int) : Nat :=
  (if i < 0 then max ((len : Int) + i) 0 else min i (len : Int)).toNat

/-- Python slice `s[a:b]` (step 1), with negative-index wrap-around and
clamping exactly as in Python. -/
def pySlice (s : Str) (a b : Int) : Str :=
  (s.take (pyBound s.length b)).drop (pyBound s.length a)

/-- Contiguous segment `s[a : a+len]` for nonnegative in-range bounds. -/
def seg (s : Str) (a len : Nat) : Str :=
  (s.drop a).take len

/-- Stable insertion of `x` before the first already-placed element it is
`le`-below-or-equal to (so `x`, which originates earlier in the input,
precedes equal keys): the model of one step of Python's stable sort. -/
def insLe (le : α → α → Bool) (x : α) : List α → List α
  | [] => [x]
  | y :: ys => if le x y then x :: y :: ys else y :: insLe le x ys

/-- Stable sort by `le`; models Python's stable `list.sort` / `sorted`. -/
def pySort (le : α → α → Bool) : List α → List α
  | [] => []
  | x :: xs => insLe le x (pySort le xs)

theorem mem_insLe (le : α → α → Bool) (x a : α) (l : List α) :
    a ∈ insLe le x l ↔ a = x ∨ a ∈ l := by
  induction l with
  | nil => simp [insLe]
  | cons y ys ih =>
    simp only [insLe]
    split <;> (simp_all; try tauto)

theorem mem_pySort (le : α → α → Bool) (a : α) (l : List α) :
    a ∈ pySort le l ↔ a ∈ l := by
  induction l with
  | nil => simp [pySort]
  | cons x xs ih => simp [pySort, mem_insLe, ih]

/-- Python's `str.upper` on the ASCII range (DNA alphabets are ASCII). -/
def pyUpper (c : Char) : Char := c.toUpper

/-- ASCII whitespace stripped by Python's `str.strip`. -/
def pyIsSpace (c : Char) : Bool :=
  c = ' ' ∨ c = '\t' ∨ c = '\n' ∨ c = '\r' ∨ c = '\x0b' ∨ c = '\x0c'

/-- Python's `str.strip()`. -/
def pyStrip (s : Str) : Str :=
  ((s.dropWhile pyIsSpace).reverse.dropWhile pyIsSpace).reverse

/-- Round-half-to-even of the fraction `a / b` (for `b > 0`), on integers:
the model of Python's banker's rounding. -/
def roundHalfEvenInt (a b : Int) : Int :=
  let q := a.fdiv b
  let r := a.fmod b
  if 2 * r < b then q
  else if b < 2 * r then q + 1
  else if q % 2 = 0 then q else q + 1

/-- Nucleotide complement, per Biopython's (ambiguous-)DNA complement
table used by `Seq.reverse_complement`: IUPAC letters (both cases) are
swapped with their complement, every other character is left unchanged. -/
def complementChar (c : Char) : Char :=
  if c = 'A' then 'T' else if c = 'T' then 'A' else
  if c = 'C' then 'G' else if c = 'G' then 'C' else
  if c = 'R' then 'Y' else if c = 'Y' then 'R' else
  if c = 'K' then 'M' else if c = 'M' then 'K' else
  if c = 'B' then 'V' else if c = 'V' then 'B' else
  if c = 'D' then 'H' else if c = 'H' then 'D' else
  if c = 'a' then 't' else if c = 't' then 'a' else
  if c = 'c' then 'g' else if c = 'g' then 'c' else
  if c = 'r' then 'y' else if c = 'y' then 'r' else
  if c = 'k' then 'm' else if c = 'm' then 'k' else
  if c = 'b' then 'v' else if c = 'v' then 'b' else
  if c = 'd' then 'h' else if c = 'h' then 'd' else c

/-- `GoldenGateUtils.reverse_complement`: `str(Seq(seq).reverse_complement())`. -/
def reverse_complement (s : Str) : Str :=
  (s.map complementChar).reverse

theorem complementChar_involutive (c : Char) :
    complementChar (complementChar c) = c := by
  by_cases h1 : c = 'A'
  · subst h1; decide
  by_cases h2 : c = 'T'
  · subst h2; decide
  by_cases h3 : c = 'C'
  · subst h3; decide
  by_cases h4 : c = 'G'
  · subst h4; decide
  by_cases h5 : c = 'R'
  · subst h5; decide
  by_cases h6 : c = 'Y'
  · subst h6; decide
  by_cases h7 : c = 'K'
  · subst h7; decide
  by_cases h8 : c = 'M'
  · subst h8; decide
  by_cases h9 : c = 'B'
  · subst h9; decide
  by_cases h10 : c = 'V'
  · subst h10; decide
  by_cases h11 : c = 'D'
  · subst h11; decide
  by_cases h12 : c = 'H'
  · subst h12; decide
  by_cases h13 : c = 'a'
  · subst h13; decide
  by_cases h14 : c = 't'
  · subst h14; decide
  by_cases h15 : c = 'c'
  · subst h15; decide
  by_cases h16 : c = 'g'
  · subst h16; decide
  by_cases h17 : c = 'r'
  · subst h17; decide
  by_cases h18 : c = 'y'
  · subst h18; decide
  by_cases h19 : c = 'k'
  · subst h19; decide
  by_cases h20 : c = 'm'
  · subst h20; decide
  by_cases h21 : c = 'b'
  · subst h21; decide
  by_cases h22 : c = 'v'
  · subst h22; decide
  by_cases h23 : c = 'd'
  · subst h23; decide
  by_cases h24 : c = 'h'
  · subst h24; decide
  have hid : complementChar c = c := by
    unfold complementChar
    simp only [if_neg h1, if_neg h2, if_neg h3, if_neg h4, if_neg h5, if_neg h6,
      if_neg h7, if_neg h8, if_neg h9, if_neg h10, if_neg h11, if_neg h12,
      if_neg h13, if_neg h14, if_neg h15, if_neg h16, if_neg h17, if_neg h18,
      if_neg h19, if_neg h20, if_neg h21, if_neg h22, if_neg h23, if_neg h24]
  rw [hid, hid]

theorem reverse_complement_involutive (s : Str) :
    reverse_complement (reverse_complement s) = s := by
  unfold reverse_complement
  rw [List.map_reverse, List.reverse_reverse, List.map_map]
  have h : (complementChar ∘ complementChar) = id := by
    funext c
    exact complementChar_involutive c
  rw [h, List.map_id]

/-! ## The standard genetic code (NCBI translation table 1)

`Bio.Data.CodonTable.unambiguous_dna_by_id[1]`: the forward table lists
the 61 sense codons in the insertion order used by Biopython (first,
second, third base each running through T, C, A, G), the three stop
codons are kept apart.  This order is observable through
`GoldenGateUtils.get_codon_seqs_for_amino_acid`, which iterates the
forward table. -/

def codonTableS : List (String × Char) :=
  [("TTT", 'F'), ("TTC", 'F'), ("TTA", 'L'), ("TTG", 'L'),
   ("TCT", 'S'), ("TCC", 'S'), ("TCA", 'S'), ("TCG", 'S'),
   ("TAT", 'Y'), ("TAC", 'Y'),
   ("TGT", 'C'), ("TGC", 'C'), ("TGG", 'W'),
   ("CTT", 'L'), ("CTC", 'L'), ("CTA", 'L'), ("CTG", 'L'),
   ("CCT", 'P'), ("CCC", 'P'), ("CCA", 'P'), ("CCG", 'P'),
   ("CAT", 'H'), ("CAC", 'H'), ("CAA", 'Q'), ("CAG", 'Q'),
   ("CGT", 'R'), ("CGC", 'R'), ("CGA", 'R'), ("CGG", 'R'),
   ("ATT", 'I'), ("ATC", 'I'), ("ATA", 'I'), ("ATG", 'M'),
   ("ACT", 'T'), ("ACC", 'T'), ("ACA", 'T'), ("ACG", 'T'),
   ("AAT", 'N'), ("AAC", 'N'), ("AAA", 'K'), ("AAG", 'K'),
   ("AGT", 'S'), ("AGC", 'S'), ("AGA", 'R'), ("AGG", 'R'),
   ("GTT", 'V'), ("GTC", 'V'), ("GTA", 'V'), ("GTG", 'V'),
   ("GCT", 'A'), ("GCC", 'A'), ("GCA", 'A'), ("GCG", 'A'),
   ("GAT", 'D'), ("GAC", 'D'), ("GAA", 'E'), ("GAG", 'E'),
   ("GGT", 'G'), ("GGC", 'G'), ("GGA", 'G'), ("GGG", 'G')]

/-- The forward table as codon character-lists. -/
def codonTable : List (Str × Char) :=
  codonTableS.map (fun p => (p.1.toList, p.2))

/-- `table.stop_codons` of translation table 1, in Biopython's order. -/
def stopCodons : List Str :=
  ["TAA".toList, "TAG".toList, "TGA".toList]

/-- `forward_table.get(codon, 'X')`: look a codon up in the forward
table, defaulting to `'X'` (stop codons are absent from the forward
table and also yield `'X'`). -/
def forwardGet (c : Str) : Char :=
  match codonTable.find? (fun p => p.1 == c) with
  | some p => p.2
  | none => 'X'

/-- Semantic translation of a codon under the standard genetic code:
its amino acid for the 61 sense codons, `'*'` for the three stop codons
and `'X'` otherwise.  This is the reference meaning of "translating a
codon" used in the claim statements, and also the value Biopython's
`Seq.translate` returns on unambiguous upper-case DNA codons. -/
def translate (c : Str) : Char :=
  match codonTable.find? (fun p => p.1 == c) with
  | some p => p.2
  | none => if stopCodons.contains c then '*' else 'X'

/-- Characters of the IUPAC ambiguous-DNA alphabet (upper case). -/
def validDnaChar (c : Char) : Bool :=
  "GATCRYWSMKHBVDN".toList.contains c

/-- `GoldenGateUtils.get_amino_acid`: `str(Seq(codon).translate())`.
Biopython raises `TranslationError` on letters outside the ambiguous-DNA
alphabet, modelled by `none`; on a valid unambiguous codon it returns
the amino acid (or `'*'` for a stop).  Ambiguous-but-resolvable codons
(e.g. `GGN`) are conservatively given `'X'`; in the pipeline this value
only feeds the codon-usage lookup, never a stored amino-acid field. -/
def get_amino_acid (c : Str) : Option Char :=
  let u := c.map pyUpper
  if u.all validDnaChar then some (translate u) else none

/-- `GoldenGateUtils.get_codon_seqs_for_amino_acid`: the stop codons for
`"*"`, otherwise the sense codons encoding the (upper-cased) amino acid,
in forward-table order. -/
def get_codon_seqs_for_amino_acid (aminoAcid : Char) : List Str :=
  let aa := pyUpper aminoAcid
  if aa = '*' then stopCodons
  else (codonTable.filter (fun p => p.2 == aa)).map (fun p => p.1)

/-- A codon-usage table (`species.json` content): amino-acid letter and
RNA codon to frequency.  Modelled as a total function because the source
reads it with `dict.get(..., default)`, which cannot fail. -/
abbrev UsageTable := Char → Str → ℚ

/-- `GoldenGateUtils.get_codon_usage`: DNA→RNA (`T`→`U`) conversion of
the codon, then the table lookup. -/
def get_codon_usage (codon : Str) (aminoAcid : Char) (tbl : UsageTable) : ℚ :=
  tbl aminoAcid (codon.map (fun ch => if ch = 'T' then 'U' else ch))

/-- `GoldenGateUtils.gc_content`: GC fraction rounded to 3 decimals. -/
def gc_content (s : Str) : ℚ :=
  if s = [] then 0
  else
    let u := s.map pyUpper
    let gc : Int := (u.filter (fun c => c = 'G' ∨ c = 'C')).length
    Rat.divInt (roundHalfEvenInt (1000 * gc) (u.length : Int)) 1000

/-- `GoldenGateUtils.calculate_tm`: the Wallace rule `2(A+T)+4(G+C)` for
lengths below 14, otherwise `64.9 + 41·(G+C−16.4)/len`, rounded to two
decimals.  The float formula is modelled exactly:
`64.9 + 41·(g−16.4)/L = (649·L + 410·g − 6724) / (10·L)`. -/
def calculate_tm (s : Str) : ℚ :=
  if s = [] then 0
  else
    let u := s.map pyUpper
    let len : Int := (u.length : Int)
    let aC : Int := (u.count 'A' : Int)
    let tC : Int := (u.count 'T' : Int)
    let gC : Int := (u.count 'G' : Int)
    let cC : Int := (u.count 'C' : Int)
    if u.length < 14 then
      Rat.divInt ((aC + tC) * 2 + (gC + cC) * 4) 1
    else
      Rat.divInt (roundHalfEvenInt (10 * (649 * len + 410 * (gC + cC) - 6724)) len) 100

/-! ## Data model (`models/base_models.py`, `models/process_models.py`,
`models/results_models.py`) -/

/-- `Codon` (pydantic model). -/
structure Codon where
  amino_acid : Char
  context_position : Int
  codon_sequence : Str
  rs_overlap : List Nat
  usage : ℚ
deriving DecidableEq

/-- `MutationCodon`. -/
structure MutationCodon where
  codon : Codon
  nth_codon_in_rs : Nat
deriving DecidableEq

/-- `OverhangOption`. -/
structure OverhangOption where
  bottom_overhang : Str
  top_overhang : Str
  overhang_start_index : Int
deriving DecidableEq

/-- `Primer`. -/
structure Primer where
  name : String := ""
  sequence : Str := []
  binding_region : Option Str := none
  tm : Option ℚ := none
  gc_content : Option ℚ := none
  length : Option Nat := none
deriving DecidableEq

/-- `Mutation`. -/
structure Mutation where
  mut_codons : List MutationCodon
  mut_codons_context_start_idx : Int
  mut_indices_rs : Option (List Nat) := none
  mut_indices_codon : Option (List Nat) := none
  mut_context : Str
  native_context : Str
  first_mut_idx : Int
  last_mut_idx : Int
  overhang_options : List OverhangOption
  context_rs_indices : List Nat
  recognition_seq : Str
  enzyme : String
deriving DecidableEq

/-- `RestrictionSite` (the optional `mutations` back-reference is never
populated by the analysed code and is omitted). -/
structure RestrictionSite where
  position : Nat
  frame : Nat
  codons : List Codon
  strand : String
  context_seq : Str
  context_rs_indices : List Nat
  context_first_base : Nat
  context_last_base : Nat
  recognition_seq : Str
  enzyme : String
deriving DecidableEq

/-- `MutationPrimerPair`. -/
structure MutationPrimerPair where
  site : String
  position : Int
  forward : Primer
  reverse : Primer
  mutation : Mutation
deriving DecidableEq

/-- `MutationPrimerSet`. -/
structure MutationPrimerSet where
  mut_primer_pairs : List MutationPrimerPair
deriving DecidableEq

/-- An N-dimensional 0/1 numpy array, in C (row-major) layout:
shape plus flattened data.  Used for the compatibility matrix. -/
structure NpArray where
  shape : List Nat
  data : List Int
deriving DecidableEq

/-- All index tuples of a given shape, in C (row-major, lexicographic)
order — the order `np.argwhere` reports matches in. -/
def allCoords : List Nat → List (List Nat)
  | [] => [[]]
  | d :: ds => (List.range d).flatMap (fun i => (allCoords ds).map (fun c => i :: c))

/-- Row-major flat index of a coordinate tuple. -/
def flatIndex : List Nat → List Nat → Nat
  | _, [] => 0
  | ds, i :: is =>
    match ds with
    | [] => 0
    | _ :: ds' => i * ds'.prod + flatIndex ds' is

/-- Value of a cell of the array (0 outside the data). -/
def cellValue (A : NpArray) (c : List Nat) : Int :=
  A.data.getD (flatIndex A.shape c) 0

/-- `np.argwhere(comp == 1)`: the coordinate tuples of all cells equal
to 1, in row-major order. -/
def argwhereEq1 (A : NpArray) : List (List Nat) :=
  (allCoords A.shape).filter (fun c => cellValue A c == 1)

/-- `MutationSet` (`results_models.py`): chosen mutation per site plus
the compatibility matrix. -/
structure MutationSet where
  alt_codons : List (String × Mutation)
  compatibility : NpArray
  mut_primer_sets : List MutationPrimerPair := []
deriving DecidableEq

/-- `MutationSetCollection`. -/
structure MutationSetCollection where
  rs_keys : List String := []
  sets : List MutationSet := []
deriving DecidableEq

/-- `PCRReaction`. -/
structure PCRReaction where
  name : String
  forward_primer : Primer
  reverse_primer : Primer
  amplicon_size : Nat
deriving DecidableEq

/-- `EdgePrimerPair`. -/
structure EdgePrimerPair where
  forward : Primer := {}
  reverse : Primer := {}
deriving DecidableEq

/-- `DomesticationResult`.  At runtime `ProtocolMaker` stores a flat
list of `MutationCodon` objects in `mutation_options` (the pydantic
annotation says `List[Mutation]`, but assignment is unvalidated and the
code passes `MutationCodon`s with a `type: ignore`), so the field is
embedded with its runtime content type. -/
structure DomesticationResult where
  sequence_index : Int := -1
  processed_sequence : Str := []
  mtk_part_left : String := ""
  mtk_part_right : String := ""
  restriction_sites : List RestrictionSite := []
  mutation_options : List MutationCodon := []
  edge_primers : EdgePrimerPair := {}
  mut_primers : List MutationPrimerSet := []
  recommended_primers : List Primer := []
  PCR_reactions : List PCRReaction := []
  messages : List String := []
deriving DecidableEq

/-! ## RestrictionSiteDetector (`rs_detector.py`) -/

/-- Fuel-driven scan for the non-overlapping, left-to-right occurrences
of `pattern` that `re.finditer` reports; after a match the scan resumes
past the match.  `fuel` bounds the recursion (structurally), initialised
to the string length, which the scan consumes at least one character of
per step. -/
def findOccAux (pattern : Str) : Nat → Str → Nat → List Nat
  | 0, _, _ => []
  | fuel + 1, s, off =>
    match s with
    | [] => []
    | c :: rest =>
      if pattern ≠ [] ∧ pattern.isPrefixOf (c :: rest) then
        off :: findOccAux pattern fuel ((c :: rest).drop pattern.length)
          (off + pattern.length)
      else
        findOccAux pattern fuel rest (off + 1)

/-- Match positions of `re.finditer(re.escape(pattern), s)`. -/
def findOcc (pattern s : Str) : List Nat :=
  findOccAux pattern s.length s 0

/-- One step of the codon loop of `RestrictionSiteDetector.get_codons`:
for each candidate codon position and its recognition-site overlap list,
keep the codon when it lies fully inside the context window.
`get_amino_acid` may raise (`none`), aborting the whole call. -/
def getCodonsAux (tbl : UsageTable) (ctx : Str) :
    List (Int × List Nat) → Option (List Codon)
  | [] => some []
  | (pos, overlap) :: rest =>
    if 0 ≤ pos ∧ pos ≤ (ctx.length : Int) - 3 then
      let codon_seq := seg ctx pos.toNat 3
      match get_amino_acid codon_seq with
      | none => none
      | some aa =>
        match getCodonsAux tbl ctx rest with
        | none => none
        | some cs =>
          some ({ amino_acid := forwardGet codon_seq,
                  context_position := pos,
                  codon_sequence := codon_seq,
                  rs_overlap := overlap,
                  usage := get_codon_usage codon_seq aa tbl } :: cs)
    else getCodonsAux tbl ctx rest

/-- Codon start positions and `rs_overlap` lists per reading frame, as
hard-coded in `get_codons` (including the `[0]` the source records for
the first frame-2 codon, contradicting its own comment `# first codon:
only position 2 is in the site`). -/
def framePositions (rsi : Int) (frame : Nat) : List (Int × List Nat) :=
  if frame = 0 then [(rsi, [0, 1, 2]), (rsi + 3, [0, 1, 2])]
  else if frame = 1 then [(rsi - 1, [1, 2]), (rsi + 2, [0, 1, 2]), (rsi + 5, [0])]
  else if frame = 2 then [(rsi - 2, [0]), (rsi + 1, [0, 1, 2]), (rsi + 4, [0, 1])]
  else []

/-- `RestrictionSiteDetector.get_codons`. -/
def get_codons (tbl : UsageTable) (context_seq : Str)
    (recognition_start_index : Int) (frame : Nat) : Option (List Codon) :=
  getCodonsAux tbl context_seq (framePositions recognition_start_index frame)

/-- Build the `RestrictionSite` for one `re.finditer` match, as in the
body of the match loop of `find_restriction_sites`. -/
def buildSite (tbl : UsageTable) (seqStr pattern : Str) (strand : String)
    (enzyme : String) (found : Nat) : Option RestrictionSite :=
  let frame := found % 3
  let startContext := found - 30
  let endContext := min seqStr.length (found + pattern.length + 30)
  let contextSeq := seg seqStr startContext (endContext - startContext)
  let relativeIndex : Int := (found : Int) - (startContext : Int)
  match get_codons tbl contextSeq relativeIndex frame with
  | none => none
  | some codons =>
    some { position := found,
           frame := frame,
           codons := codons,
           strand := strand,
           context_seq := contextSeq,
           context_rs_indices := (List.range pattern.length).map
             (fun i => found + i - startContext),
           context_first_base := startContext,
           context_last_base := endContext,
           recognition_seq := pattern,
           enzyme := enzyme }

/-- Sequence the `Option`-valued builder over a list, aborting at the
first failure (the model of an uncaught exception inside a loop). -/
def optMapList (f : α → Option β) : List α → Option (List β)
  | [] => some []
  | a :: as =>
    match f a with
    | none => none
    | some b =>
      match optMapList f as with
      | none => none
      | some bs => some (b :: bs)

theorem mem_optMapList {f : α → Option β} {l : List α} {r : List β}
    (h : optMapList f l = some r) {b : β} (hb : b ∈ r) :
    ∃ a ∈ l, f a = some b := by
  induction l generalizing r with
  | nil =>
    simp only [optMapList, Option.some.injEq] at h
    subst h
    simp at hb
  | cons a as ih =>
    simp only [optMapList] at h
    cases hfa : f a with
    | none => simp [hfa] at h
    | some b0 =>
      rw [hfa] at h
      cases hrest : optMapList f as with
      | none => simp [hrest] at h
      | some bs =>
        rw [hrest] at h
        simp only [Option.some.injEq] at h
        subst h
        rcases List.mem_cons.mp hb with rfl | hb
        · exact ⟨a, List.mem_cons_self a as, hfa⟩
        · obtain ⟨a', ha', hfa'⟩ := ih hrest hb
          exact ⟨a', List.mem_cons_of_mem a ha', hfa'⟩

/-- All sites of one search pattern, in match order. -/
def sitesFor (tbl : UsageTable) (seqStr pattern : Str) (strand : String)
    (enzyme : String) : Option (List RestrictionSite) :=
  optMapList (buildSite tbl seqStr pattern strand enzyme) (findOcc pattern seqStr)

/-- `RestrictionSiteDetector.find_restriction_sites`: upper-case the
input; for BsmBI then BsaI scan the forward recognition sequence
(strand `+`) and its reverse complement (strand `-`); sort all sites by
ascending position (Python's stable sort). -/
def find_restriction_sites (tbl : UsageTable) (sequence : Str) :
    Option (List RestrictionSite) :=
  let seqStr := sequence.map pyUpper
  let bsmbi := "CGTCTC".toList
  let bsai := "GGTCTC".toList
  match sitesFor tbl seqStr bsmbi "+" "BsmBI",
        sitesFor tbl seqStr (reverse_complement bsmbi) "-" "BsmBI",
        sitesFor tbl seqStr bsai "+" "BsaI",
        sitesFor tbl seqStr (reverse_complement bsai) "-" "BsaI" with
  | some a, some b, some c, some d =>
    some (pySort (fun s t => s.position ≤ t.position) (a ++ b ++ c ++ d))
  | _, _, _, _ => none

/-! ## MutationAnalyzer (`mut_analyzer.py`) -/

/-- One alternative-codon record (`codon_alternatives` entries of
`get_all_mutations`). -/
structure AltInfo where
  mutation_codon : MutationCodon
  muts : List Nat
  mutations_in_rs : List Nat
  context_position : Int
deriving DecidableEq

/-- The inner `for alt_seq in alt_codon_seqs` loop of
`get_all_mutations`: skip the original codon, compute the differing
intra-codon positions (`muts`), intersect with `rs_overlap`
(`mutations_in_rs`, kept in ascending order as Python's small-int sets
iterate), and keep the alternative when the intersection is nonempty.
Indexing `codon.codon_sequence[i]` for `i < 3` raises when the stored
codon is shorter than three characters (`none`). -/
def codonAlternativesAux (tbl : UsageTable) (codonIdx : Nat) (codon : Codon) :
    List Str → Option (List AltInfo)
  | [] => some []
  | altSeq :: rest =>
    if altSeq = codon.codon_sequence then
      codonAlternativesAux tbl codonIdx codon rest
    else if codon.codon_sequence.length < 3 then none
    else
      let muts := (List.range 3).filter
        (fun i => ¬ altSeq.getD i ' ' = codon.codon_sequence.getD i ' ')
      let mutationsInRs := muts.filter (fun i => codon.rs_overlap.contains i)
      if mutationsInRs = [] then codonAlternativesAux tbl codonIdx codon rest
      else
        match codonAlternativesAux tbl codonIdx codon rest with
        | none => none
        | some l =>
          some ({ mutation_codon :=
                    { codon := { amino_acid := codon.amino_acid,
                                 context_position := codon.context_position,
                                 codon_sequence := altSeq,
                                 rs_overlap := codon.rs_overlap,
                                 usage := get_codon_usage altSeq codon.amino_acid tbl },
                      nth_codon_in_rs := codonIdx + 1 },
                  muts := muts,
                  mutations_in_rs := mutationsInRs,
                  context_position := codon.context_position } :: l)

/-- All retained alternatives of one codon slot. -/
def codon_alternatives (tbl : UsageTable) (codonIdx : Nat) (codon : Codon) :
    Option (List AltInfo) :=
  codonAlternativesAux tbl codonIdx codon
    (get_codon_seqs_for_amino_acid codon.amino_acid)

/-- `alternatives_by_codon`: alternatives per codon slot, keeping only
slots with at least one alternative. -/
def altsByCodonAux (tbl : UsageTable) : Nat → List Codon →
    Option (List (Nat × List AltInfo))
  | _, [] => some []
  | idx, c :: cs =>
    match codon_alternatives tbl idx c with
    | none => none
    | some alts =>
      match altsByCodonAux tbl (idx + 1) cs with
      | none => none
      | some rest => some (if alts = [] then rest else (idx, alts) :: rest)

/-- The splice-and-collect loop of
`MutationAnalyzer._get_combined_mutated_context`, carrying the working
sequence and the collected global mutation indices. -/
def applyMutationsAux : Str → List Int → List (Int × Str × List Nat) →
    Option (Str × List Int)
  | s, acc, [] => some (s, acc)
  | s, acc, (codonPos, newCodon, muts) :: rest =>
    if newCodon.length ≠ 3 then none
    else if codonPos < 0 ∨ (s.length : Int) < codonPos + 3 then none
    else if muts = [] then none
    else
      let p := codonPos.toNat
      let s' := s.take p ++ newCodon ++ s.drop (p + 3)
      let gFirst := codonPos + ((muts.min?.getD 0 : Nat) : Int)
      let gLast := codonPos + ((muts.max?.getD 0 : Nat) : Int)
      applyMutationsAux s' (acc ++ [gFirst, gLast]) rest

/-- `MutationAnalyzer._get_combined_mutated_context`.  Note the bounds
check is against the length of the *original* context string, which the
single-codon splices leave unchanged; `min`/`max` of an empty
`global_positions` list would raise (`none`). -/
def get_combined_mutated_context (ctx : Str)
    (infos : List (Int × Str × List Nat)) : Option (Str × Int × Int) :=
  match applyMutationsAux ctx [] infos with
  | none => none
  | some (s, ps) =>
    match ps.min?, ps.max? with
    | some mn, some mx => some (s, mn, mx)
    | _, _ => none

/-- The four 4-nt window alignments tried at a mutation boundary. -/
def stickyRangesFor (pos : Int) : List (Int × Int) :=
  [(pos - 3, pos + 1), (pos - 2, pos + 2), (pos - 1, pos + 3), (pos, pos + 4)]

/-- Windows of `_calculate_sticky_ends_with_context` at one boundary
position: each in-bounds alignment `range(a, a+4)` yields the top-strand
4-mer, its reverse complement as the bottom strand, and the window start. -/
def stickyOptionsForPos (ctx : Str) (pos : Int) : List (Str × Str × Int) :=
  (stickyRangesFor pos).filterMap (fun ab =>
    if 0 ≤ ab.1 ∧ ab.1 < (ctx.length : Int) ∧ ab.2 - 1 < (ctx.length : Int) then
      let top := seg ctx ab.1.toNat (ab.2 - ab.1).toNat
      some (top, reverse_complement top, ab.1)
    else none)

/-- `sorted({first_mut_idx, last_mut_idx})`. -/
def sortedPairList (a b : Int) : List Int :=
  if a = b then [a] else if a < b then [a, b] else [b, a]

/-- `MutationAnalyzer._calculate_sticky_ends_with_context`, as the list
of per-position window options (the source's dict keyed by
`position_{pos}`, in sorted position order). -/
def calculate_sticky_ends_with_context (ctx : Str) (firstMut lastMut : Int) :
    List (Int × List (Str × Str × Int)) :=
  (sortedPairList firstMut lastMut).map (fun pos => (pos, stickyOptionsForPos ctx pos))

/-- The consumption of the sticky-end dict in `get_all_mutations`:
`zip`ped top/bottom strands become `OverhangOption`s, across all
boundary positions. -/
def overhangOptionsOf (sticky : List (Int × List (Str × Str × Int))) :
    List OverhangOption :=
  sticky.flatMap (fun pr => pr.2.map (fun t =>
    { bottom_overhang := t.2.1, top_overhang := t.1,
      overhang_start_index := t.2.2 }))

/-- Assemble the `Mutation` object for one retained alternative
(the body of the `for alt in alternatives` loop). -/
def mutationOfAlt (site : RestrictionSite) (alt : AltInfo) : Option Mutation :=
  match get_combined_mutated_context site.context_seq
      [(alt.context_position, alt.mutation_codon.codon.codon_sequence, alt.muts)] with
  | none => none
  | some (mutatedCtx, firstMut, lastMut) =>
    some { mut_codons := [alt.mutation_codon],
           mut_codons_context_start_idx := alt.context_position,
           mut_indices_rs := some alt.mutations_in_rs,
           mut_indices_codon := some alt.muts,
           mut_context := mutatedCtx,
           native_context := site.context_seq,
           first_mut_idx := firstMut,
           last_mut_idx := lastMut,
           overhang_options := overhangOptionsOf
             (calculate_sticky_ends_with_context mutatedCtx firstMut lastMut),
           context_rs_indices := site.context_rs_indices,
           recognition_seq := site.recognition_seq,
           enzyme := site.enzyme }

/-- Mutations from the alternatives of one codon slot, skipping those
that exceed `max_mutations`. -/
def altListMutations (maxMut : Nat) (site : RestrictionSite) :
    List AltInfo → Option (List Mutation)
  | [] => some []
  | alt :: rest =>
    if maxMut < alt.muts.length then altListMutations maxMut site rest
    else
      match mutationOfAlt site alt with
      | none => none
      | some m =>
        match altListMutations maxMut site rest with
        | none => none
        | some ms => some (m :: ms)

/-- Mutations over all codon slots of a site. -/
def groupsMutations (maxMut : Nat) (site : RestrictionSite) :
    List (Nat × List AltInfo) → Option (List Mutation)
  | [] => some []
  | (_, alts) :: rest =>
    match altListMutations maxMut site alts with
    | none => none
    | some ms =>
      match groupsMutations maxMut site rest with
      | none => none
      | some ms' => some (ms ++ ms')

/-- `valid_mutations` of one restriction site. -/
def site_mutations (tbl : UsageTable) (maxMut : Nat) (site : RestrictionSite) :
    Option (List Mutation) :=
  match altsByCodonAux tbl 0 site.codons with
  | none => none
  | some groups => groupsMutations maxMut site groups

/-- `rs_key = f"mutation_{site.position}"`. -/
def rsKeyOf (site : RestrictionSite) : String :=
  "mutation_" ++ toString site.position

/-- Python dict assignment `d[k] = v` on an insertion-ordered
association list. -/
def dictSet (d : List (String × α)) (k : String) (v : α) : List (String × α) :=
  if d.any (fun p => p.1 = k) then
    d.map (fun p => if p.1 = k then (k, v) else p)
  else d ++ [(k, v)]

/-- The site loop of `get_all_mutations`: sites with no valid mutation
are silently omitted from the result dict. -/
def getAllMutationsAux (tbl : UsageTable) (maxMut : Nat) :
    List (String × List Mutation) → List RestrictionSite →
    Option (List (String × List Mutation))
  | acc, [] => some acc
  | acc, site :: rest =>
    match site_mutations tbl maxMut site with
    | none => none
    | some ms =>
      getAllMutationsAux tbl maxMut
        (if ms = [] then acc else dictSet acc (rsKeyOf site) ms) rest

/-- `MutationAnalyzer.get_all_mutations`: mapping
`"mutation_<position>"` to the list of single-codon `Mutation` options. -/
def get_all_mutations (tbl : UsageTable) (maxMut : Nat)
    (sites : List RestrictionSite) : Option (List (String × List Mutation)) :=
  getAllMutationsAux tbl maxMut [] sites

/-! ## PrimerDesigner (`primer_designer.py`) -/

/-- `default_params["tm_threshold"]`. -/
def tmThreshold : ℚ := 55

/-- `self.spacer`. -/
def spacer : Str := "GAA".toList

/-- `self.bsmbi_site`. -/
def bsmbiSite : Str := "CGTCTC".toList

/-- `self.max_binding_length`. -/
def maxBindingLength : Nat := 30

/-- `min_binding_length` default of `_construct_mutation_primer_set`. -/
def minBindingLength : Nat := 10

/-- Forward annealing-region growth loop: starting from length `L`,
re-slice `ctx[f5 : f5+L]` and grow while the melting temperature is
below the threshold and `L < 30`.  Structural fuel (`30 − L` at entry)
stands in for the loop bound. -/
def fGrowAux (ctx : Str) (f5 : Int) : Nat → Nat → Str
  | 0, L => pySlice ctx f5 (f5 + (L : Int))
  | fuel + 1, L =>
    let a := pySlice ctx f5 (f5 + (L : Int))
    if calculate_tm a < tmThreshold ∧ L < maxBindingLength then
      fGrowAux ctx f5 fuel (L + 1)
    else a

/-- The final forward annealing region `f_anneal`. -/
def fGrow (ctx : Str) (f5 : Int) : Str :=
  fGrowAux ctx f5 (maxBindingLength - minBindingLength) minBindingLength

/-- Reverse annealing-region growth loop.  Note the asymmetry of the
source: the initial window is `ctx[r5 : r5+L]`, but every loop
iteration re-slices on the *other* side, `ctx[r5−L : r5]`. -/
def rGrowAux (ctx : Str) (r5 : Int) : Nat → Nat → Str → Str
  | 0, _, cur => cur
  | fuel + 1, L, cur =>
    if calculate_tm cur < tmThreshold ∧ L < maxBindingLength then
      rGrowAux ctx r5 fuel (L + 1) (pySlice ctx (r5 - ((L : Int) + 1)) r5)
    else cur

/-- The final reverse annealing region before reverse-complementation. -/
def rGrow (ctx : Str) (r5 : Int) : Str :=
  rGrowAux ctx r5 (maxBindingLength - minBindingLength) minBindingLength
    (pySlice ctx r5 (r5 + (minBindingLength : Int)))

/-- `f_anneal` for a chosen overhang (`f_5prime = overhang_start - 1`). -/
def forwardAnneal (mutCtx : Str) (overhangStart : Int) : Str :=
  fGrow mutCtx (overhangStart - 1)

/-- `r_anneal` for a chosen overhang (`r_5prime = overhang_start + 5`),
after the final `reverse_complement`. -/
def reverseAnneal (mutCtx : Str) (overhangStart : Int) : Str :=
  reverse_complement (rGrow mutCtx (overhangStart + 5))

/-- The forward post-construction check
`f_anneal[1:5].strip().upper() == top_overhang.strip().upper()`
asserted by `logger.validate` (which logs, but does not raise). -/
def forwardAnnealCheck (mutCtx : Str) (od : OverhangOption) : Bool :=
  (pyStrip (pySlice (forwardAnneal mutCtx od.overhang_start_index) 1 5)).map pyUpper
    = (pyStrip od.top_overhang).map pyUpper

/-- The reverse post-construction check
`r_anneal[1:5].strip().upper() == bottom_overhang.strip().upper()`. -/
def reverseAnnealCheck (mutCtx : Str) (od : OverhangOption) : Bool :=
  (pyStrip (pySlice (reverseAnneal mutCtx od.overhang_start_index) 1 5)).map pyUpper
    = (pyStrip od.bottom_overhang).map pyUpper

/-- Python dict lookup `d[k]` (a missing key raises, hence `Option`). -/
def lookupDict (d : List (String × α)) (k : String) : Option α :=
  (d.find? (fun p => p.1 == k)).map (fun p => p.2)

/-- Primer-pair construction for one restriction site inside
`_construct_mutation_primer_set` (the explicit out-of-range check on
the selected overhang index raises `IndexError`, hence `Option`). -/
def constructPair (primerName : String) (i : Nat) (rsKey : String)
    (mutation : Mutation) (selOv : Nat) : Option MutationPrimerPair :=
  match mutation.overhang_options.get? selOv with
  | none => none
  | some od =>
    let ctx := mutation.mut_context
    let fA := forwardAnneal ctx od.overhang_start_index
    let fSeq := spacer ++ bsmbiSite ++ fA
    let rA := reverseAnneal ctx od.overhang_start_index
    let rSeq := spacer ++ bsmbiSite ++ rA
    some { site := rsKey,
           position := mutation.first_mut_idx,
           forward := { name := if primerName ≠ "" then primerName ++ "_forward"
                                else "primer_" ++ toString i ++ "_forward",
                        sequence := fSeq,
                        binding_region := some fA,
                        tm := some (calculate_tm fA),
                        gc_content := some (gc_content fA),
                        length := some fSeq.length },
           reverse := { name := if primerName ≠ "" then primerName ++ "_reverse"
                                else "primer_" ++ toString i ++ "_reverse",
                        sequence := rSeq,
                        binding_region := some rA,
                        tm := some (calculate_tm rA),
                        gc_content := some (gc_content rA),
                        length := some rSeq.length },
           mutation := mutation }

/-- The `for i, rs_key in enumerate(mut_rs_keys)` loop of
`_construct_mutation_primer_set`. -/
def constructAux (primerName : String) (mutationSet : MutationSet)
    (coords : List Nat) : Nat → List String → Option (List MutationPrimerPair)
  | _, [] => some []
  | i, rsKey :: rest =>
    match lookupDict mutationSet.alt_codons rsKey with
    | none => none
    | some mutation =>
      match coords.get? i with
      | none => none
      | some selOv =>
        match constructPair primerName i rsKey mutation selOv with
        | none => none
        | some pair =>
          match constructAux primerName mutationSet coords (i + 1) rest with
          | none => none
          | some pairs => some (pair :: pairs)

/-- `PrimerDesigner._construct_mutation_primer_set`. -/
def construct_mutation_primer_set (mutRsKeys : List String)
    (mutationSet : MutationSet) (selectedCoords : List Nat)
    (primerName : String) : Option (List MutationPrimerPair) :=
  constructAux primerName mutationSet selectedCoords 0 mutRsKeys

/-- `RESULT_MAPPING` with the `.get(..., lambda ...: 1)` default;
`int(0.75 * total)` is the exact floor `3·total/4`. -/
def resultMapping (s : String) (numSites totalCoords : Nat) : Nat :=
  if s = "one" then 1
  else if s = "a few" then 2 * numSites
  else if s = "many" then 4 * numSites
  else if s = "most" then 3 * totalCoords / 4
  else if s = "all" then totalCoords
  else 1

/-- Coordinate selection for one mutation set: all valid coordinates
when `max_results == 0`, otherwise `np.random.choice(len(valid),
sample_size, replace=False)` applied to the valid list.  The random
draw is an oracle parameter `sel`; a `sel` outside the semantics of
`np.random.choice` (wrong length, repetition, out of range) is not a
program behaviour and yields `none`. -/
def selectCoords (valid : List (List Nat)) (maxResults : Nat)
    (sel : List Nat) : Option (List (List Nat)) :=
  if maxResults = 0 then some valid
  else
    if sel.length = min maxResults valid.length ∧ sel.Nodup ∧
        ∀ j ∈ sel, j < valid.length then
      some (sel.map (fun j => valid.getD j []))
    else none

/-- The per-mutation-set body of `design_mutation_primers`: gather the
valid coordinates of the compatibility matrix, select, and construct one
primer-pair group per selected coordinate tuple. -/
def processSet (mutRsKeys : List String) (primerName : String)
    (maxResults : Nat) (s : MutationSet) (sel : List Nat) :
    Option (List (List MutationPrimerPair)) :=
  match selectCoords (argwhereEq1 s.compatibility) maxResults sel with
  | none => none
  | some coords =>
    optMapList (fun c => construct_mutation_primer_set mutRsKeys s c primerName) coords

/-- The `for idx, mut_set in enumerate(mutation_sets.sets)` loop: the
groups of one set are flattened into its `MutationPrimerSet`; sets with
no pair contribute nothing. -/
def designAux (mutRsKeys : List String) (primerName : String)
    (maxResults : Nat) : List (MutationSet × List Nat) →
    Option (List MutationPrimerSet)
  | [] => some []
  | (s, sel) :: rest =>
    match processSet mutRsKeys primerName maxResults s sel with
    | none => none
    | some groups =>
      let pairs := groups.flatten
      match designAux mutRsKeys primerName maxResults rest with
      | none => none
      | some sets =>
        some (if pairs = [] then sets else { mut_primer_pairs := pairs } :: sets)

/-- `PrimerDesigner.design_mutation_primers`.  `selections` lists the
random-choice oracle of each mutation set (one entry per set).  The
outer `Option` models exceptions; the inner one models the Python
`None` returned when no set yields a primer pair. -/
def design_mutation_primers (col : MutationSetCollection)
    (primerName maxResultsStr : String) (selections : List (List Nat)) :
    Option (Option (List MutationPrimerSet)) :=
  let numSites := col.rs_keys.length
  let total := (col.sets.map (fun s => (argwhereEq1 s.compatibility).length)).sum
  let maxResults := resultMapping maxResultsStr numSites total
  match designAux col.rs_keys primerName maxResults (col.sets.zip selections) with
  | none => none
  | some allPrimers =>
    some (if allPrimers = [] then none else some allPrimers)

/-! ## ReactionOrganizer (`reaction_organizer.py`) -/

/-- `ReactionOrganizer.calculate_amplicon_size` (placeholder constant in
the source). -/
def calculate_amplicon_size (_forwardPrimer _reversePrimer : Primer) : Nat := 500

/-- `ReactionOrganizer.create_pcr_reaction`. -/
def create_pcr_reaction (name : String) (forwardPrimer reversePrimer : Primer) :
    PCRReaction :=
  { name := name,
    forward_primer := forwardPrimer,
    reverse_primer := reversePrimer,
    amplicon_size := calculate_amplicon_size forwardPrimer reversePrimer }

/-- One solution of the nested reaction dictionary. -/
structure SolutionData where
  solution_id : Nat
  reactions : List PCRReaction
deriving DecidableEq

/-- One mutation set of the nested reaction dictionary. -/
structure MutationSetReactions where
  set_id : Nat
  solutions : List SolutionData
deriving DecidableEq

/-- The nested dictionary returned by
`group_primers_into_pcr_reactions`. -/
structure NestedReactions where
  mutation_sets : List MutationSetReactions
deriving DecidableEq

/-- `f"set{set_idx}_sol0_reaction_{reaction_num}"`. -/
def reactionLabel (setIdx num : Nat) : String :=
  "set" ++ toString setIdx ++ "_sol0_reaction_" ++ toString num

/-- The intermediate-plus-final chaining loop: with `prev` the previous
mutation pair, emit `prev.forward + current.reverse` for each remaining
pair and close with `last.forward + edge_reverse`. -/
def chainAux (setIdx : Nat) (edgeRv : Primer) :
    Nat → MutationPrimerPair → List MutationPrimerPair → List PCRReaction
  | num, prev, [] => [create_pcr_reaction (reactionLabel setIdx num) prev.forward edgeRv]
  | num, prev, p :: rest =>
    create_pcr_reaction (reactionLabel setIdx num) prev.forward p.reverse ::
      chainAux setIdx edgeRv (num + 1) p rest

/-- Reactions of one mutation set: edge-only when the set has no pairs,
otherwise sort by `position` and chain
(edge-forward + first reverse, …, last forward + edge-reverse). -/
def chainReactionsFor (setIdx : Nat) (edgeFw edgeRv : Primer)
    (pairs : List MutationPrimerPair) : List PCRReaction :=
  if pairs = [] then
    [create_pcr_reaction (reactionLabel setIdx 1) edgeFw edgeRv]
  else
    match pySort (fun a b => a.position ≤ b.position) pairs with
    | [] => []
    | p0 :: restP =>
      create_pcr_reaction (reactionLabel setIdx 1) edgeFw p0.reverse ::
        chainAux setIdx edgeRv 2 p0 restP

/-- `ReactionOrganizer.group_primers_into_pcr_reactions`. -/
def group_primers_into_pcr_reactions (dr : DomesticationResult) : NestedReactions :=
  let edgeFw := dr.edge_primers.forward
  let edgeRv := dr.edge_primers.reverse
  if dr.mut_primers = [] then
    let edgeReaction := create_pcr_reaction "reaction_1" edgeFw edgeRv
    ⟨[⟨0, [⟨0, [edgeReaction]⟩]⟩]⟩
  else
    let setsOut := dr.mut_primers.enum.map (fun pr =>
      MutationSetReactions.mk pr.1
        [⟨0, chainReactionsFor pr.1 edgeFw edgeRv pr.2.mut_primer_pairs⟩])
    ⟨setsOut⟩

/-! ## SequencePreparator (`sequence_preparator.py`,
`mtkv3_no_node_mods` tree) -/

/-- The preparator's `stop_codons` set. -/
def prepStopCodons : List Str :=
  ["TAA".toList, "TAG".toList, "TGA".toList]

/-- `SequencePreparator.preprocess_sequence`: upper-case; strip a
leading `ATG` when `matk_part_left` is `"3"`/`"3a"`; strip a trailing
stop codon; trim the frame remainder from the end (after a start trim)
or the beginning (after a stop trim); when the original length was not
a multiple of three and nothing was trimmed, return the upper-cased
original.  The success flag is always `True`. -/
def preprocess_sequence (sequence : Str) (matkPartLeft : String) : Str × Bool :=
  let seqU := sequence.map pyUpper
  let trimStart : Bool :=
    (matkPartLeft = "3" ∨ matkPartLeft = "3a") ∧ 3 ≤ seqU.length ∧
      seqU.take 3 = "ATG".toList
  let c1 := if trimStart then seqU.drop 3 else seqU
  let trimStop : Bool :=
    3 ≤ c1.length ∧ prepStopCodons.contains (c1.drop (c1.length - 3))
  let c2 := if trimStop then c1.take (c1.length - 3) else c1
  let rem := c2.length % 3
  let c3 :=
    if rem ≠ 0 then
      if trimStart then c2.take (c2.length - rem)
      else if trimStop then c2.drop rem
      else c2
    else c2
  let inFrame : Bool := seqU.length % 3 = 0
  if ¬ inFrame ∧ ¬ trimStart ∧ ¬ trimStop then (seqU, true) else (c3, true)

/-! ## ProtocolMaker (`protocol_maker.py`) -/

/-- `ProtocolMaker.create_gg_protocol` as far as it shapes the returned
`DomesticationResult`: preprocessing, restriction-site detection (early
return on zero sites), and mutation analysis, whose flattened
`MutationCodon`s are stored in `mutation_options`.  The later stages —
best-mutation selection, the compatibility matrix built by the
`MutationOptimizer` (absent from the analysed sources) and
`design_mutation_primers` — never assign to the result object (their
return values are discarded), so they are modelled as identity on it;
`edge_primers` and `PCR_reactions` are never populated on any path. -/
def create_gg_protocol (tbl : UsageTable) (sequence : Str)
    (mtkPartLeft mtkPartRight : String) (requestIdx : Int) (maxMut : Nat) :
    Option DomesticationResult :=
  let dr0 : DomesticationResult :=
    { sequence_index := requestIdx,
      mtk_part_left := mtkPartLeft,
      mtk_part_right := mtkPartRight }
  let pre := preprocess_sequence sequence mtkPartLeft
  if ¬ pre.2 then some dr0
  else
    let dr1 := { dr0 with processed_sequence := pre.1 }
    match find_restriction_sites tbl pre.1 with
    | none => none
    | some sites =>
      if sites = [] then some dr1
      else
        match get_all_mutations tbl maxMut sites with
        | none => none
        | some opts =>
          let flat := opts.flatMap (fun kl => kl.2.flatMap (fun m => m.mut_codons))
          some { dr1 with mutation_options := flat }

/-! ## Library lemmas about the embedding -/

theorem mem_dictSet {d : List (String × α)} {k : String} {v : α} {e}
    (h : e ∈ dictSet d k v) : e ∈ d ∨ e = (k, v) := by
  unfold dictSet at h
  split at h
  · rcases List.mem_map.mp h with ⟨p, hp, he⟩
    by_cases hk : p.1 = k
    · right
      rw [if_pos hk] at he
      exact he.symm
    · left
      rw [if_neg hk] at he
      exact he ▸ hp
  · rcases List.mem_append.mp h with hd | he
    · exact Or.inl hd
    · right
      simpa using he

theorem getAllMutationsAux_mem {tbl : UsageTable} {maxMut : Nat} :
    ∀ {sites : List RestrictionSite} {acc res : List (String × List Mutation)},
      getAllMutationsAux tbl maxMut acc sites = some res →
      ∀ kl ∈ res, kl ∈ acc ∨
        ∃ site ∈ sites, ∃ ms, site_mutations tbl maxMut site = some ms ∧ kl.2 = ms := by
  intro sites
  induction sites with
  | nil =>
    intro acc res h kl hkl
    simp only [getAllMutationsAux, Option.some.injEq] at h
    exact Or.inl (h ▸ hkl)
  | cons site rest ih =>
    intro acc res h kl hkl
    simp only [getAllMutationsAux] at h
    cases hms : site_mutations tbl maxMut site with
    | none => rw [hms] at h; exact absurd h (by simp)
    | some ms =>
      rw [hms] at h
      rcases ih h kl hkl with hacc | ⟨s, hs, ms', hms', hkl2⟩
      · by_cases hempty : ms = []
        · rw [if_pos hempty] at hacc
          exact Or.inl hacc
        · rw [if_neg hempty] at hacc
          rcases mem_dictSet hacc with hold | hnew
          · exact Or.inl hold
          · refine Or.inr ⟨site, List.mem_cons_self site rest, ms, hms, ?_⟩
            rw [hnew]
      · exact Or.inr ⟨s, List.mem_cons_of_mem site hs, ms', hms', hkl2⟩

theorem get_all_mutations_mem {tbl : UsageTable} {maxMut : Nat}
    {sites : List RestrictionSite} {res : List (String × List Mutation)}
    (h : get_all_mutations tbl maxMut sites = some res) {kl} (hkl : kl ∈ res) :
    ∃ site ∈ sites, ∃ ms, site_mutations tbl maxMut site = some ms ∧ kl.2 = ms := by
  rcases getAllMutationsAux_mem h kl hkl with habs | hgood
  · simp at habs
  · exact hgood

theorem altListMutations_mem {maxMut : Nat} {site : RestrictionSite} :
    ∀ {alts : List AltInfo} {out : List Mutation},
      altListMutations maxMut site alts = some out →
      ∀ m ∈ out, ∃ alt ∈ alts, alt.muts.length ≤ maxMut ∧
        mutationOfAlt site alt = some m := by
  intro alts
  induction alts with
  | nil =>
    intro out h m hm
    simp only [altListMutations, Option.some.injEq] at h
    subst h
    simp at hm
  | cons alt rest ih =>
    intro out h m hm
    simp only [altListMutations] at h
    split at h
    · obtain ⟨a, ha, hlen, hma⟩ := ih h m hm
      exact ⟨a, List.mem_cons_of_mem alt ha, hlen, hma⟩
    · cases hmo : mutationOfAlt site alt with
      | none => rw [hmo] at h; exact absurd h (by simp)
      | some m0 =>
        rw [hmo] at h
        cases hrest : altListMutations maxMut site rest with
        | none => rw [hrest] at h; exact absurd h (by simp)
        | some ms =>
          rw [hrest] at h
          simp only [Option.some.injEq] at h
          subst h
          rcases List.mem_cons.mp hm with rfl | hm'
          · exact ⟨alt, List.mem_cons_self alt rest, by omega, hmo⟩
          · obtain ⟨a, ha, hlen, hma⟩ := ih hrest m hm'
            exact ⟨a, List.mem_cons_of_mem alt ha, hlen, hma⟩

theorem groupsMutations_mem {maxMut : Nat} {site : RestrictionSite} :
    ∀ {groups : List (Nat × List AltInfo)} {out : List Mutation},
      groupsMutations maxMut site groups = some out →
      ∀ m ∈ out, ∃ g ∈ groups, ∃ ms, altListMutations maxMut site g.2 = some ms ∧
        m ∈ ms := by
  intro groups
  induction groups with
  | nil =>
    intro out h m hm
    simp only [groupsMutations, Option.some.injEq] at h
    subst h
    simp at hm
  | cons g rest ih =>
    intro out h m hm
    obtain ⟨gi, galts⟩ := g
    simp only [groupsMutations] at h
    cases halts : altListMutations maxMut site galts with
    | none => rw [halts] at h; exact absurd h (by simp)
    | some ms =>
      rw [halts] at h
      cases hrest : groupsMutations maxMut site rest with
      | none => rw [hrest] at h; exact absurd h (by simp)
      | some ms' =>
        rw [hrest] at h
        simp only [Option.some.injEq] at h
        subst h
        rcases List.mem_append.mp hm with hm1 | hm2
        · exact ⟨(gi, galts), List.mem_cons_self _ rest, ms, halts, hm1⟩
        · obtain ⟨g', hg', ms'', hms'', hmem⟩ := ih hrest m hm2
          exact ⟨g', List.mem_cons_of_mem _ hg', ms'', hms'', hmem⟩

theorem altsByCodonAux_mem {tbl : UsageTable} :
    ∀ {codons : List Codon} {i : Nat} {groups : List (Nat × List AltInfo)},
      altsByCodonAux tbl i codons = some groups →
      ∀ g ∈ groups, ∃ codon ∈ codons, codon_alternatives tbl g.1 codon = some g.2 := by
  intro codons
  induction codons with
  | nil =>
    intro i groups h g hg
    simp only [altsByCodonAux, Option.some.injEq] at h
    subst h
    simp at hg
  | cons c cs ih =>
    intro i groups h g hg
    simp only [altsByCodonAux] at h
    cases halts : codon_alternatives tbl i c with
    | none => rw [halts] at h; exact absurd h (by simp)
    | some alts =>
      rw [halts] at h
      cases hrest : altsByCodonAux tbl (i + 1) cs with
      | none => rw [hrest] at h; exact absurd h (by simp)
      | some rest =>
        rw [hrest] at h
        simp only [Option.some.injEq] at h
        subst h
        by_cases hempty : alts = []
        · rw [if_pos hempty] at hg
          obtain ⟨codon, hcodon, hca⟩ := ih hrest g hg
          exact ⟨codon, List.mem_cons_of_mem c hcodon, hca⟩
        · rw [if_neg hempty] at hg
          rcases List.mem_cons.mp hg with rfl | hg'
          · exact ⟨c, List.mem_cons_self c cs, halts⟩
          · obtain ⟨codon, hcodon, hca⟩ := ih hrest g hg'
            exact ⟨codon, List.mem_cons_of_mem c hcodon, hca⟩

theorem site_mutations_mem {tbl : UsageTable} {maxMut : Nat}
    {site : RestrictionSite} {ms : List Mutation}
    (h : site_mutations tbl maxMut site = some ms) {m} (hm : m ∈ ms) :
    ∃ codon ∈ site.codons, ∃ idx alts, codon_alternatives tbl idx codon = some alts ∧
      ∃ alt ∈ alts, alt.muts.length ≤ maxMut ∧ mutationOfAlt site alt = some m := by
  unfold site_mutations at h
  cases hg : altsByCodonAux tbl 0 site.codons with
  | none => rw [hg] at h; exact absurd h (by simp)
  | some groups =>
    rw [hg] at h
    obtain ⟨g, hgmem, ms', hms', hmem⟩ := groupsMutations_mem h m hm
    obtain ⟨alt, halt, hlen, hma⟩ := altListMutations_mem hms' m hmem
    obtain ⟨codon, hcodon, hca⟩ := altsByCodonAux_mem hg g hgmem
    exact ⟨codon, hcodon, g.1, g.2, hca, alt, halt, hlen, hma⟩

theorem codonAlternativesAux_mem {tbl : UsageTable} {idx : Nat} {codon : Codon} :
    ∀ {altSeqs : List Str} {out : List AltInfo},
      codonAlternativesAux tbl idx codon altSeqs = some out →
      ∀ alt ∈ out, ∃ altSeq ∈ altSeqs,
        ¬ altSeq = codon.codon_sequence ∧
        ¬ codon.codon_sequence.length < 3 ∧
        alt.muts = (List.range 3).filter
          (fun i => ¬ altSeq.getD i ' ' = codon.codon_sequence.getD i ' ') ∧
        alt.mutations_in_rs = alt.muts.filter (fun i => codon.rs_overlap.contains i) ∧
        ¬ alt.mutations_in_rs = [] ∧
        alt.mutation_codon.codon.codon_sequence = altSeq ∧
        alt.mutation_codon.codon.rs_overlap = codon.rs_overlap ∧
        alt.mutation_codon.codon.amino_acid = codon.amino_acid ∧
        alt.context_position = codon.context_position := by
  intro altSeqs
  induction altSeqs with
  | nil =>
    intro out h alt halt
    simp only [codonAlternativesAux, Option.some.injEq] at h
    subst h
    simp at halt
  | cons altSeq rest ih =>
    intro out h alt halt
    simp only [codonAlternativesAux] at h
    by_cases heq : altSeq = codon.codon_sequence
    · rw [if_pos heq] at h
      obtain ⟨a, ha, rest'⟩ := ih h alt halt
      exact ⟨a, List.mem_cons_of_mem altSeq ha, rest'⟩
    · rw [if_neg heq] at h
      by_cases hlen : codon.codon_sequence.length < 3
      · rw [if_pos hlen] at h
        exact absurd h (by simp)
      · rw [if_neg hlen] at h
        by_cases hrs : ((List.range 3).filter
            (fun i => ¬ altSeq.getD i ' ' = codon.codon_sequence.getD i ' ')).filter
              (fun i => codon.rs_overlap.contains i) = []
        · rw [if_pos hrs] at h
          obtain ⟨a, ha, rest'⟩ := ih h alt halt
          exact ⟨a, List.mem_cons_of_mem altSeq ha, rest'⟩
        · rw [if_neg hrs] at h
          cases hrest : codonAlternativesAux tbl idx codon rest with
          | none => rw [hrest] at h; exact absurd h (by simp)
          | some l =>
            rw [hrest] at h
            simp only [Option.some.injEq] at h
            subst h
            rcases List.mem_cons.mp halt with rfl | halt'
            · exact ⟨altSeq, List.mem_cons_self altSeq rest, heq, hlen,
                rfl, rfl, hrs, rfl, rfl, rfl, rfl⟩
            · obtain ⟨a, ha, rest'⟩ := ih hrest alt halt'
              exact ⟨a, List.mem_cons_of_mem altSeq ha, rest'⟩

theorem mutationOfAlt_fields {site : RestrictionSite} {alt : AltInfo} {m : Mutation}
    (h : mutationOfAlt site alt = some m) :
    m.mut_codons = [alt.mutation_codon] ∧
    m.mut_codons_context_start_idx = alt.context_position ∧
    m.native_context = site.context_seq ∧
    m.overhang_options = overhangOptionsOf
      (calculate_sticky_ends_with_context m.mut_context m.first_mut_idx m.last_mut_idx) := by
  unfold mutationOfAlt at h
  cases hc : get_combined_mutated_context site.context_seq
      [(alt.context_position, alt.mutation_codon.codon.codon_sequence, alt.muts)] with
  | none => rw [hc] at h; exact absurd h (by simp)
  | some t =>
    obtain ⟨mutCtx, firstMut, lastMut⟩ := t
    rw [hc] at h
    simp only [Option.some.injEq] at h
    subst h
    exact ⟨rfl, rfl, rfl, rfl⟩

theorem getCodonsAux_mem {tbl : UsageTable} {ctx : Str} :
    ∀ {pairs : List (Int × List Nat)} {out : List Codon},
      getCodonsAux tbl ctx pairs = some out →
      ∀ c ∈ out, ∃ pos overlap, (pos, overlap) ∈ pairs ∧
        0 ≤ pos ∧ pos ≤ (ctx.length : Int) - 3 ∧
        c.amino_acid = forwardGet (seg ctx pos.toNat 3) ∧
        c.context_position = pos ∧
        c.codon_sequence = seg ctx pos.toNat 3 ∧
        c.rs_overlap = overlap := by
  intro pairs
  induction pairs with
  | nil =>
    intro out h c hc
    simp only [getCodonsAux, Option.some.injEq] at h
    subst h
    simp at hc
  | cons pr rest ih =>
    intro out h c hc
    obtain ⟨pos, overlap⟩ := pr
    simp only [getCodonsAux] at h
    by_cases hin : 0 ≤ pos ∧ pos ≤ (ctx.length : Int) - 3
    · rw [if_pos hin] at h
      cases haa : get_amino_acid (seg ctx pos.toNat 3) with
      | none => rw [haa] at h; exact absurd h (by simp)
      | some aa =>
        rw [haa] at h
        cases hrest : getCodonsAux tbl ctx rest with
        | none => rw [hrest] at h; exact absurd h (by simp)
        | some cs =>
          rw [hrest] at h
          simp only [Option.some.injEq] at h
          subst h
          rcases List.mem_cons.mp hc with rfl | hc'
          · exact ⟨pos, overlap, List.mem_cons_self _ rest, hin.1, hin.2,
              rfl, rfl, rfl, rfl⟩
          · obtain ⟨p, ov, hmem, rest'⟩ := ih hrest c hc'
            exact ⟨p, ov, List.mem_cons_of_mem _ hmem, rest'⟩
    · rw [if_neg hin] at h
      obtain ⟨p, ov, hmem, rest'⟩ := ih h c hc
      exact ⟨p, ov, List.mem_cons_of_mem _ hmem, rest'⟩

theorem buildSite_codons {tbl : UsageTable} {seqStr pattern : Str}
    {strand enzyme : String} {found : Nat} {s : RestrictionSite}
    (h : buildSite tbl seqStr pattern strand enzyme found = some s) :
    ∃ codons, get_codons tbl s.context_seq
        ((found : Int) - ((found - 30 : Nat) : Int)) (found % 3) = some codons ∧
      s.codons = codons := by
  unfold buildSite at h
  dsimp only at h
  cases hg : get_codons tbl
      (seg seqStr (found - 30) (min seqStr.length (found + pattern.length + 30) - (found - 30)))
      ((found : Int) - ((found - 30 : Nat) : Int)) (found % 3) with
  | none => rw [hg] at h; exact absurd h (by simp)
  | some codons =>
    rw [hg] at h
    simp only [Option.some.injEq] at h
    subst h
    exact ⟨codons, hg, rfl⟩

/-- Detector invariant used by the claims: every codon of every detected
site carries the 3-nt segment of the context window starting at its
`context_position`, and its `amino_acid` is the forward-table lookup of
that segment. -/
theorem find_restriction_sites_codon_inv {tbl : UsageTable} {sequence : Str}
    {sites : List RestrictionSite}
    (h : find_restriction_sites tbl sequence = some sites)
    {s : RestrictionSite} (hs : s ∈ sites) {c : Codon} (hc : c ∈ s.codons) :
    0 ≤ c.context_position ∧
    (c.context_position : Int) + 3 ≤ s.context_seq.length ∧
    c.codon_sequence = seg s.context_seq c.context_position.toNat 3 ∧
    c.amino_acid = forwardGet c.codon_sequence := by
  have hbuild : ∃ pattern strand enzyme found,
      buildSite tbl (sequence.map pyUpper) pattern strand enzyme found = some s := by
    unfold find_restriction_sites at h
    dsimp only at h
    cases h1 : sitesFor tbl (sequence.map pyUpper) "CGTCTC".toList "+" "BsmBI" with
    | none => rw [h1] at h; exact absurd h (by simp)
    | some a =>
      cases h2 : sitesFor tbl (sequence.map pyUpper)
          (reverse_complement "CGTCTC".toList) "-" "BsmBI" with
      | none => rw [h1, h2] at h; exact absurd h (by simp)
      | some b =>
        cases h3 : sitesFor tbl (sequence.map pyUpper) "GGTCTC".toList "+" "BsaI" with
        | none => rw [h1, h2, h3] at h; exact absurd h (by simp)
        | some c' =>
          cases h4 : sitesFor tbl (sequence.map pyUpper)
              (reverse_complement "GGTCTC".toList) "-" "BsaI" with
          | none => rw [h1, h2, h3, h4] at h; exact absurd h (by simp)
          | some d =>
            rw [h1, h2, h3, h4] at h
            simp only [Option.some.injEq] at h
            subst h
            have hsmem := (mem_pySort _ s _).mp hs
            simp only [List.mem_append] at hsmem
            rcases hsmem with ((hma | hmb) | hmc) | hmd
            · obtain ⟨f, hf, hbs⟩ := mem_optMapList h1 hma
              exact ⟨_, _, _, f, hbs⟩
            · obtain ⟨f, hf, hbs⟩ := mem_optMapList h2 hmb
              exact ⟨_, _, _, f, hbs⟩
            · obtain ⟨f, hf, hbs⟩ := mem_optMapList h3 hmc
              exact ⟨_, _, _, f, hbs⟩
            · obtain ⟨f, hf, hbs⟩ := mem_optMapList h4 hmd
              exact ⟨_, _, _, f, hbs⟩
  obtain ⟨pattern, strand, enzyme, found, hbs⟩ := hbuild
  obtain ⟨codons, hg, hcodons⟩ := buildSite_codons hbs
  rw [hcodons] at hc
  unfold get_codons at hg
  obtain ⟨pos, overlap, _, hpos0, hpos3, haa, hcp, hcs, _⟩ := getCodonsAux_mem hg c hc
  refine ⟨hcp ▸ hpos0, ?_, ?_, ?_⟩
  · rw [hcp]; omega
  · rw [hcp, hcs]
  · rw [haa, hcs]

/-! ## Facts about the genetic-code tables -/

theorem find?_table_of_mem :
    ∀ {l : List (Str × Char)}, (l.map Prod.fst).Nodup →
      ∀ {k : Str} {v : Char}, (k, v) ∈ l →
        l.find? (fun p => p.1 == k) = some (k, v) := by
  intro l
  induction l with
  | nil =>
    intro _ k v h
    simp at h
  | cons hd tl ih =>
    intro hnd k v h
    obtain ⟨k', v'⟩ := hd
    simp only [List.map_cons, List.nodup_cons] at hnd
    by_cases hk : k' = k
    · subst hk
      rcases List.mem_cons.mp h with heq | htl
      · rw [List.find?_cons_of_pos _ (by simp)]
        simpa using heq.symm
      · exfalso
        exact hnd.1 (List.mem_map.mpr ⟨(k', v), htl, rfl⟩)
    · rcases List.mem_cons.mp h with heq | htl
      · exact absurd (congrArg Prod.fst heq).symm hk
      · rw [List.find?_cons_of_neg _ (by simpa using hk)]
        exact ih hnd.2 htl

theorem codonTable_keys_nodup : (codonTable.map Prod.fst).Nodup := by decide

theorem codonTable_vals :
    ∀ p ∈ codonTable, pyUpper p.2 = p.2 ∧ ¬ p.2 = 'X' ∧ ¬ pyUpper p.2 = '*' := by
  decide

theorem translate_of_mem {cs : Str} {a : Char} (h : (cs, a) ∈ codonTable) :
    translate cs = a := by
  unfold translate
  rw [find?_table_of_mem codonTable_keys_nodup h]

theorem forwardGet_of_mem {cs : Str} {a : Char} (h : (cs, a) ∈ codonTable) :
    forwardGet cs = a := by
  unfold forwardGet
  rw [find?_table_of_mem codonTable_keys_nodup h]

/-- `forwardGet` either hits a table entry (with `translate` agreeing)
or falls back to `'X'`. -/
theorem forwardGet_cases (cs : Str) :
    (∃ a, (cs, a) ∈ codonTable ∧ forwardGet cs = a ∧ translate cs = a) ∨
      forwardGet cs = 'X' := by
  cases hf : codonTable.find? (fun p => p.1 == cs) with
  | none =>
    right
    unfold forwardGet
    rw [hf]
  | some p =>
    left
    have hmem := List.mem_of_find?_eq_some hf
    have hpred := List.find?_some hf
    have hp1 : p.1 = cs := by simpa using hpred
    refine ⟨p.2, ?_, ?_, ?_⟩
    · have hpcs : p = (cs, p.2) := by
        rw [← hp1]
      exact hpcs ▸ hmem
    · unfold forwardGet
      rw [hf]
    · unfold translate
      rw [hf]

theorem mem_get_codon_seqs {aa : Char} {cs : Str}
    (h : cs ∈ get_codon_seqs_for_amino_acid aa) :
    (pyUpper aa = '*' ∧ cs ∈ stopCodons) ∨ (cs, pyUpper aa) ∈ codonTable := by
  unfold get_codon_seqs_for_amino_acid at h
  by_cases hstar : pyUpper aa = '*'
  · rw [if_pos hstar] at h
    exact Or.inl ⟨hstar, h⟩
  · rw [if_neg hstar] at h
    right
    rcases List.mem_map.mp h with ⟨p, hp, hcs⟩
    have hfilter := List.mem_filter.mp hp
    have hv : p.2 = pyUpper aa := by simpa using hfilter.2
    have : p = (cs, pyUpper aa) := by
      obtain ⟨p1, p2⟩ := p
      simp only at hcs hv
      rw [hcs, hv]
    exact this ▸ hfilter.1

theorem get_codon_seqs_X : get_codon_seqs_for_amino_acid 'X' = [] := by decide

/-! ## Structure of the produced overhang options -/

theorem stickyRangesFor_spread {pos : Int} {ab : Int × Int}
    (hab : ab ∈ stickyRangesFor pos) : ab.2 = ab.1 + 4 := by
  simp only [stickyRangesFor, List.mem_cons, List.not_mem_nil, or_false] at hab
  rcases hab with rfl | rfl | rfl | rfl <;> (dsimp only; try omega)

theorem mem_stickyOptionsForPos {ctx : Str} {pos : Int} {t : Str × Str × Int}
    (ht : t ∈ stickyOptionsForPos ctx pos) :
    0 ≤ t.2.2 ∧ t.2.2 + 4 ≤ (ctx.length : Int) ∧
    t.1 = seg ctx t.2.2.toNat 4 ∧ t.2.1 = reverse_complement t.1 := by
  unfold stickyOptionsForPos at ht
  rcases List.mem_filterMap.mp ht with ⟨ab, hab, hsome⟩
  have hspread := stickyRangesFor_spread hab
  split at hsome
  case isTrue hcond =>
    simp only [Option.some.injEq] at hsome
    subst hsome
    dsimp only
    have h4 : (ab.2 - ab.1).toNat = 4 := by omega
    refine ⟨hcond.1, by omega, ?_, rfl⟩
    rw [h4]
  case isFalse =>
    exact absurd hsome (by simp)

theorem mem_overhangOptionsOf {ctx : Str} {f l : Int} {od : OverhangOption}
    (h : od ∈ overhangOptionsOf (calculate_sticky_ends_with_context ctx f l)) :
    0 ≤ od.overhang_start_index ∧
    od.overhang_start_index + 4 ≤ (ctx.length : Int) ∧
    od.top_overhang = seg ctx od.overhang_start_index.toNat 4 ∧
    od.bottom_overhang = reverse_complement od.top_overhang := by
  unfold overhangOptionsOf calculate_sticky_ends_with_context at h
  rcases List.mem_flatMap.mp h with ⟨pr, hpr, hod⟩
  rcases List.mem_map.mp hpr with ⟨pos, _, hpr'⟩
  subst hpr'
  rcases List.mem_map.mp hod with ⟨t, ht, hod'⟩
  subst hod'
  obtain ⟨h0, h4, htop, hbot⟩ := mem_stickyOptionsForPos ht
  exact ⟨h0, h4, htop, by rw [hbot, htop]⟩

theorem length_stickyOptionsForPos (ctx : Str) (pos : Int) :
    (stickyOptionsForPos ctx pos).length ≤ 4 := by
  unfold stickyOptionsForPos
  exact le_trans (List.length_filterMap_le _ _) (by rfl)

theorem length_overhangOptionsOf (ctx : Str) (f l : Int) :
    (overhangOptionsOf (calculate_sticky_ends_with_context ctx f l)).length ≤ 8 := by
  unfold overhangOptionsOf calculate_sticky_ends_with_context sortedPairList
  have h4 := length_stickyOptionsForPos ctx
  split_ifs with h1 h2
  · simp only [List.map_cons, List.map_nil, List.flatMap_cons, List.flatMap_nil,
      List.append_nil, List.length_map]
    have := h4 f
    omega
  · simp only [List.map_cons, List.map_nil, List.flatMap_cons, List.flatMap_nil,
      List.append_nil, List.length_append, List.length_map]
    have := h4 f
    have := h4 l
    omega
  · simp only [List.map_cons, List.map_nil, List.flatMap_cons, List.flatMap_nil,
      List.append_nil, List.length_append, List.length_map]
    have := h4 f
    have := h4 l
    omega

/-- Full origin trace of a produced `Mutation`. -/
theorem mutation_trace {tbl : UsageTable} {maxMut : Nat}
    {sites : List RestrictionSite} {res : List (String × List Mutation)}
    (h : get_all_mutations tbl maxMut sites = some res)
    {kl} (hkl : kl ∈ res) {m : Mutation} (hm : m ∈ kl.2) :
    ∃ site ∈ sites, ∃ codon ∈ site.codons, ∃ idx alts alt,
      codon_alternatives tbl idx codon = some alts ∧ alt ∈ alts ∧
      alt.muts.length ≤ maxMut ∧ mutationOfAlt site alt = some m := by
  obtain ⟨site, hsite, ms, hms, hkl2⟩ := get_all_mutations_mem h hkl
  obtain ⟨codon, hcodon, idx, alts, hca, alt, halt, hlen, hma⟩ :=
    site_mutations_mem hms (hkl2 ▸ hm)
  exact ⟨site, hsite, codon, hcodon, idx, alts, alt, hca, halt, hlen, hma⟩

/-- The shared all-zero codon-usage table used for concrete runs
(usage frequencies never influence the properties at issue). -/
def zeroUsage : UsageTable := fun _ _ => 0

/-! ## Claims -/

/-- C8: for every `OverhangOption` produced by
`MutationAnalyzer.get_all_mutations`, reverse-complementing the top
overhang yields the recorded bottom overhang, and reverse-complementing
the bottom overhang yields the top overhang (exact round trip), for any
usage table, mutation cap and input site list. -/
theorem claim_C8 (tbl : UsageTable) (maxMut : Nat)
    (sites : List RestrictionSite) (res : List (String × List Mutation))
    (h : get_all_mutations tbl maxMut sites = some res) :
    ∀ kl ∈ res, ∀ m ∈ kl.2, ∀ od ∈ m.overhang_options,
      reverse_complement od.top_overhang = od.bottom_overhang ∧
      reverse_complement od.bottom_overhang = od.top_overhang := by
  intro kl hkl m hm od hod
  obtain ⟨site, _, codon, _, idx, alts, alt, hca, halt, hlen, hma⟩ :=
    mutation_trace h hkl hm
  obtain ⟨_, _, _, hoo⟩ := mutationOfAlt_fields hma
  rw [hoo] at hod
  obtain ⟨_, _, _, hbot⟩ := mem_overhangOptionsOf hod
  refine ⟨hbot.symm, ?_⟩
  rw [hbot, reverse_complement_involutive]

/-- Concrete sites and mutation options used by several witnesses:
the sequence `GAGACGTTTAAATTTAAA` has one `-`-strand BsmBI site at
position 0. -/
def w8sites : List RestrictionSite :=
  (find_restriction_sites zeroUsage "GAGACGTTTAAATTTAAA".toList).getD []

def w8res : List (String × List Mutation) :=
  (get_all_mutations zeroUsage 1 w8sites).getD []

/-- The first produced key/mutation-list entry, mutation and overhang
option of the `GAGACGTTTAAATTTAAA` run, used as concrete witnesses. -/
def w8kl : String × List Mutation := w8res.getD 0 ("", [])

def w8m : Mutation :=
  w8kl.2.getD 0 ⟨[], 0, none, none, [], [], 0, 0, [], [], [], ""⟩

def w8od : OverhangOption := w8m.overhang_options.getD 0 ⟨[], [], 0⟩

theorem claim_C8_witness :
    w8kl ∈ w8res ∧ w8m ∈ w8kl.2 ∧ w8od ∈ w8m.overhang_options ∧
    (reverse_complement w8od.top_overhang = w8od.bottom_overhang ∧
     reverse_complement w8od.bottom_overhang = w8od.top_overhang) :=
  ⟨by decide, by decide, by decide,
   claim_C8 zeroUsage 1 w8sites w8res rfl w8kl (by decide) w8m (by decide)
     w8od (by decide)⟩

/-- C10: every `OverhangOption` of a produced `Mutation` has its start
index within `[0, len(mut_context) − 4]`, its top overhang is exactly
the 4-character window of `mut_context` at that index, and a `Mutation`
carries at most 8 options (at most two boundary positions, at most four
alignments each). -/
theorem claim_C10 (tbl : UsageTable) (maxMut : Nat)
    (sites : List RestrictionSite) (res : List (String × List Mutation))
    (h : get_all_mutations tbl maxMut sites = some res) :
    ∀ kl ∈ res, ∀ m ∈ kl.2,
      m.overhang_options.length ≤ 8 ∧
      ∀ od ∈ m.overhang_options,
        0 ≤ od.overhang_start_index ∧
        od.overhang_start_index + 4 ≤ (m.mut_context.length : Int) ∧
        od.top_overhang = seg m.mut_context od.overhang_start_index.toNat 4 := by
  intro kl hkl m hm
  obtain ⟨site, _, codon, _, idx, alts, alt, hca, halt, hlen, hma⟩ :=
    mutation_trace h hkl hm
  obtain ⟨_, _, _, hoo⟩ := mutationOfAlt_fields hma
  constructor
  · rw [hoo]
    exact length_overhangOptionsOf _ _ _
  · intro od hod
    rw [hoo] at hod
    obtain ⟨h0, h4, htop, _⟩ := mem_overhangOptionsOf hod
    exact ⟨h0, h4, htop⟩

theorem claim_C10_witness :
    w8kl ∈ w8res ∧ w8m ∈ w8kl.2 ∧ w8od ∈ w8m.overhang_options ∧
    w8m.overhang_options.length ≤ 8 ∧
    0 ≤ w8od.overhang_start_index ∧
    w8od.overhang_start_index + 4 ≤ (w8m.mut_context.length : Int) ∧
    w8od.top_overhang = seg w8m.mut_context w8od.overhang_start_index.toNat 4 :=
  ⟨by decide, by decide, by decide,
   (claim_C10 zeroUsage 1 w8sites w8res rfl w8kl (by decide) w8m (by decide)).1,
   (claim_C10 zeroUsage 1 w8sites w8res rfl w8kl (by decide) w8m (by decide)).2
     w8od (by decide)⟩

/-- Trace of a produced replacement codon back to the original codon of
its detected restriction site: the replacement is a synonymous-table
entry for the forward-table amino acid of the original 3-nt window of
the native context, and at least one differing intra-codon position lies
in the recorded `rs_overlap`. -/
theorem pipeline_trace {tbl : UsageTable} {maxMut : Nat} {sequence : Str}
    {sites : List RestrictionSite} {res : List (String × List Mutation)}
    (hs : find_restriction_sites tbl sequence = some sites)
    (h : get_all_mutations tbl maxMut sites = some res)
    {kl} (hkl : kl ∈ res) {m : Mutation} (hm : m ∈ kl.2)
    {mc : MutationCodon} (hmc : mc ∈ m.mut_codons) :
    mc.codon.codon_sequence ∈ get_codon_seqs_for_amino_acid
      (forwardGet (seg m.native_context m.mut_codons_context_start_idx.toNat 3)) ∧
    ∃ i, i < 3 ∧
      ¬ mc.codon.codon_sequence.getD i ' ' =
        (seg m.native_context m.mut_codons_context_start_idx.toNat 3).getD i ' ' ∧
      i ∈ mc.codon.rs_overlap := by
  obtain ⟨site, hsite, codon, hcodon, idx, alts, alt, hca, halt, hlen, hma⟩ :=
    mutation_trace h hkl hm
  obtain ⟨hmcods, hstart, hnative, _⟩ := mutationOfAlt_fields hma
  have hmceq : mc = alt.mutation_codon := by
    rw [hmcods] at hmc
    simpa using hmc
  obtain ⟨altSeq, haltSeq, hne, hlen3, hmuts, hinrs, hinrs_ne, hcseq, hrsov, haa, hcp⟩ :=
    codonAlternativesAux_mem hca alt halt
  obtain ⟨hpos0, hpos3, hcs0, hfg⟩ := find_restriction_sites_codon_inv hs hsite hcodon
  have hseg : seg m.native_context m.mut_codons_context_start_idx.toNat 3 =
      codon.codon_sequence := by
    rw [hnative, hstart, hcp, hcs0]
  constructor
  · rw [hseg, ← hfg, hmceq, hcseq]
    exact haltSeq
  · obtain ⟨i, hi⟩ := List.exists_mem_of_ne_nil _ hinrs_ne
    rw [hinrs] at hi
    have hi' := List.mem_filter.mp hi
    have himuts := hi'.1
    rw [hmuts] at himuts
    have himuts' := List.mem_filter.mp himuts
    have hirange : i < 3 := by simpa using himuts'.1
    have hdiff : ¬ altSeq.getD i ' ' = codon.codon_sequence.getD i ' ' := by
      simpa using himuts'.2
    have hcont : i ∈ codon.rs_overlap := by
      exact List.mem_of_elem_eq_true hi'.2
    refine ⟨i, hirange, ?_, ?_⟩
    · rw [hseg, hmceq, hcseq]
      exact hdiff
    · rw [hmceq, hrsov]
      exact hcont

/-- C3: every `Mutation` produced by `MutationAnalyzer.get_all_mutations`
on the sites detected by `RestrictionSiteDetector.find_restriction_sites`
replaces a codon by one translating (standard genetic code) to the same
amino acid as the 3-nt window of the native context it replaces, for
every input sequence, usage table and mutation cap. -/
theorem claim_C3 (tbl : UsageTable) (maxMut : Nat) (sequence : Str)
    (sites : List RestrictionSite) (res : List (String × List Mutation))
    (hs : find_restriction_sites tbl sequence = some sites)
    (h : get_all_mutations tbl maxMut sites = some res) :
    ∀ kl ∈ res, ∀ m ∈ kl.2, ∀ mc ∈ m.mut_codons,
      translate mc.codon.codon_sequence =
        translate (seg m.native_context m.mut_codons_context_start_idx.toNat 3) := by
  intro kl hkl m hm mc hmc
  obtain ⟨hsyn, -⟩ := pipeline_trace hs h hkl hm hmc
  set cs0 := seg m.native_context m.mut_codons_context_start_idx.toNat 3 with hcs0
  rcases forwardGet_cases cs0 with ⟨a, hmem, hfg, htr⟩ | hX
  · rw [hfg] at hsyn
    have hvals := codonTable_vals (cs0, a) hmem
    rcases mem_get_codon_seqs hsyn with ⟨hstar, _⟩ | htab
    · exact absurd hstar hvals.2.2
    · rw [hvals.1] at htab
      rw [translate_of_mem htab, htr]
  · rw [hX, get_codon_seqs_X] at hsyn
    simp at hsyn

def w2sites : List RestrictionSite :=
  (find_restriction_sites zeroUsage "ACGTCTCTGG".toList).getD []

def w2res : List (String × List Mutation) :=
  (get_all_mutations zeroUsage 2 w2sites).getD []

/-- The first produced key/mutation-list entry, mutation and mutated
codon of the `ACGTCTCTGG` run, used as concrete witnesses. -/
def w2kl : String × List Mutation := w2res.getD 0 ("", [])

def w2m : Mutation :=
  w2kl.2.getD 0 ⟨[], 0, none, none, [], [], 0, 0, [], [], [], ""⟩

def w2mc : MutationCodon := w2m.mut_codons.getD 0 ⟨⟨' ', 0, [], [], 0⟩, 0⟩

theorem claim_C3_witness :
    w2kl ∈ w2res ∧ w2m ∈ w2kl.2 ∧ w2mc ∈ w2m.mut_codons ∧
    translate w2mc.codon.codon_sequence =
      translate (seg w2m.native_context w2m.mut_codons_context_start_idx.toNat 3) :=
  ⟨by decide, by decide, by decide,
   claim_C3 zeroUsage 2 "ACGTCTCTGG".toList w2sites w2res rfl rfl
     w2kl (by decide) w2m (by decide) w2mc (by decide)⟩

/-- C2 (counterexample to the claim as stated): with
`max_mutations = 2`, the sequence `ACGTCTCTGG` (BsmBI site at position
1, frame 1) yields a mutation — Leu `CTG → TTA` at the third spanned
codon, whose `rs_overlap` is `[0]` — that differs from the original
codon at intra-codon position 2, which is *not* in `rs_overlap`. -/
theorem claim_C2_counterexample :
    ∃ sites, find_restriction_sites zeroUsage "ACGTCTCTGG".toList = some sites ∧
    ∃ res, get_all_mutations zeroUsage 2 sites = some res ∧
    ∃ kl ∈ res, ∃ m ∈ kl.2, ∃ mc ∈ m.mut_codons, ∃ i ∈ [0, 1, 2],
      ¬ mc.codon.codon_sequence.getD i ' ' =
        (seg m.native_context m.mut_codons_context_start_idx.toNat 3).getD i ' ' ∧
      ¬ i ∈ mc.codon.rs_overlap := by
  refine ⟨_, rfl, _, rfl, ?_⟩
  decide

/-- C2 (amended): a produced replacement codon need not differ from the
original *only* inside `rs_overlap` (when `max_mutations ≥ 2` it may
also differ outside); what holds is that **at least one** differing
intra-codon position lies in the codon's recorded `rs_overlap` — the
substitution always disrupts the recognition-site overlap. -/
theorem claim_C2 (tbl : UsageTable) (maxMut : Nat) (sequence : Str)
    (sites : List RestrictionSite) (res : List (String × List Mutation))
    (hs : find_restriction_sites tbl sequence = some sites)
    (h : get_all_mutations tbl maxMut sites = some res) :
    ∀ kl ∈ res, ∀ m ∈ kl.2, ∀ mc ∈ m.mut_codons,
      ∃ i, i < 3 ∧
        ¬ mc.codon.codon_sequence.getD i ' ' =
          (seg m.native_context m.mut_codons_context_start_idx.toNat 3).getD i ' ' ∧
        i ∈ mc.codon.rs_overlap := by
  intro kl hkl m hm mc hmc
  exact (pipeline_trace hs h hkl hm hmc).2

theorem claim_C2_witness :
    w2kl ∈ w2res ∧ w2m ∈ w2kl.2 ∧ w2mc ∈ w2m.mut_codons ∧
    ∃ i, i < 3 ∧
      ¬ w2mc.codon.codon_sequence.getD i ' ' =
        (seg w2m.native_context w2m.mut_codons_context_start_idx.toNat 3).getD i ' ' ∧
      i ∈ w2mc.codon.rs_overlap :=
  ⟨by decide, by decide, by decide,
   claim_C2 zeroUsage 2 "ACGTCTCTGG".toList w2sites w2res rfl rfl
     w2kl (by decide) w2m (by decide) w2mc (by decide)⟩

/-- C1: refuted by the code — for the frame-2 BsmBI site of
`AACGTCTCAAAA` (match at position 2), `get_codons` records
`rs_overlap = [0]` for the first spanned codon, although the only
intra-codon position `i < 3` with `context_position + i` inside the
recognition-site indices is `i = 2` (the mirrored pattern `[2]` the
claim — and the source's own comment — demand). -/
theorem claim_C1 :
    ∃ sites, find_restriction_sites zeroUsage "AACGTCTCAAAA".toList = some sites ∧
    ∃ s ∈ sites, s.frame = 2 ∧ ∃ c ∈ s.codons,
      c.rs_overlap = [0] ∧
      ∀ i ∈ [0, 1, 2],
        ((c.context_position + (i : Int)) ∈
            s.context_rs_indices.map (fun n => (n : Int)) ↔ i = 2) := by
  refine ⟨_, rfl, ?_⟩
  decide

/-- C6: refuted by the code — on `GAGACGTTTAAATTTAAA` (strand `-`
BsmBI site at position 0, `max_mutations = 1`), the `GAG → GAA`
mutation carries an upstream-produced `OverhangOption` with
`overhang_start_index = 0` (a valid selected-overhang index); there the
forward annealing slice starts at `f_5prime = -1`, Python's negative
indexing empties it, and the asserted window equality
`f_anneal[1:5].strip().upper() == top_overhang.strip().upper()` is
false. -/
theorem claim_C6 :
    ∃ sites, find_restriction_sites zeroUsage "GAGACGTTTAAATTTAAA".toList = some sites ∧
    ∃ res, get_all_mutations zeroUsage 1 sites = some res ∧
    ∃ kl ∈ res, ∃ m ∈ kl.2, ∃ od,
      m.overhang_options.get? 0 = some od ∧
      od.overhang_start_index = 0 ∧
      od.top_overhang = seg m.mut_context 0 4 ∧
      od.bottom_overhang = reverse_complement od.top_overhang ∧
      forwardAnnealCheck m.mut_context od = false := by
  refine ⟨_, rfl, _, rfl, ?_⟩
  decide

/-- C9 (counterexample to the claim as stated): the sequence `ATGAAA`
with left part `"2"` has zero restriction sites; `create_gg_protocol`
returns a result whose `mutation_options` is empty — but whose
`PCR_reactions` is empty as well, not a single edge-only reaction
(the orchestrator returns before edge primers or `ReactionOrganizer`
ever run). -/
theorem claim_C9_counterexample :
    ∃ dr, create_gg_protocol zeroUsage "ATGAAA".toList "2" "3" 0 1 = some dr ∧
      find_restriction_sites zeroUsage dr.processed_sequence = some [] ∧
      dr.mutation_options = [] ∧ dr.PCR_reactions = [] ∧
      ¬ dr.PCR_reactions.length = 1 := by
  refine ⟨_, rfl, ?_⟩
  decide

/-- C9 (amended): with zero detected restriction sites the pipeline
returns a `DomesticationResult` whose `mutation_options` is empty and
whose `PCR_reactions` is empty — the orchestrator returns early and
never invokes edge-primer design or `ReactionOrganizer` (the edge-only
reaction would only arise if `group_primers_into_pcr_reactions` were
called on the result). -/
theorem claim_C9 (tbl : UsageTable) (sequence : Str) (left right : String)
    (idx : Int) (maxMut : Nat) (dr : DomesticationResult)
    (hzero : find_restriction_sites tbl (preprocess_sequence sequence left).1 = some [])
    (h : create_gg_protocol tbl sequence left right idx maxMut = some dr) :
    dr.mutation_options = [] ∧ dr.PCR_reactions = [] ∧
    dr.mut_primers = [] ∧ dr.edge_primers = {} := by
  have hpre2 : (preprocess_sequence sequence left).2 = true := by
    unfold preprocess_sequence
    dsimp only
    split_ifs <;> rfl
  unfold create_gg_protocol at h
  dsimp only at h
  rw [hpre2] at h
  rw [if_neg (by simp)] at h
  rw [hzero] at h
  dsimp only at h
  rw [if_pos rfl] at h
  simp only [Option.some.injEq] at h
  subst h
  exact ⟨rfl, rfl, rfl, rfl⟩

theorem claim_C9_witness :
    ∃ dr, create_gg_protocol zeroUsage "ATGAAA".toList "2" "3" 0 1 = some dr ∧
      dr.mutation_options = [] ∧ dr.PCR_reactions = [] ∧
      dr.mut_primers = [] ∧ dr.edge_primers = {} :=
  ⟨_, rfl, claim_C9 zeroUsage "ATGAAA".toList "2" "3" 0 1 _ (by rfl) rfl⟩

/-- C5 (counterexample to the claim as stated): the lower-case input
`taa` satisfies the claim's hypotheses literally (length 3, does not
begin with `ATG`, does not end with `TAA`/`TAG`/`TGA`), yet
`preprocess_sequence` upper-cases it to `TAA`, recognises that as a
stop codon, strips it, and returns the *empty* sequence with
`success = true` — not the input unchanged. -/
theorem claim_C5_counterexample :
    "taa".toList.length % 3 = 0 ∧
    ¬ "taa".toList.take 3 = "ATG".toList ∧
    ¬ "taa".toList.drop ("taa".toList.length - 3) ∈ prepStopCodons ∧
    preprocess_sequence "taa".toList "2" = ([], true) ∧
    ¬ preprocess_sequence "taa".toList "2" = ("taa".toList, true) := by
  decide

/-- C5 (amended): `preprocess_sequence` first upper-cases the input; for
every input whose *upper-casing* `u` has length a multiple of 3, is not
start-trimmed (no leading `ATG` or part marker not `"3"`/`"3a"`) and
does not end in a stop codon, it returns `(u, true)` — the upper-cased
input unchanged (equal to the input itself whenever the input is
already upper-case). -/
theorem claim_C5 (sequence : Str) (marker : String)
    (hframe : (sequence.map pyUpper).length % 3 = 0)
    (hstart : ¬ ((marker = "3" ∨ marker = "3a") ∧
      3 ≤ (sequence.map pyUpper).length ∧
      (sequence.map pyUpper).take 3 = "ATG".toList))
    (hstop : ¬ (3 ≤ (sequence.map pyUpper).length ∧
      prepStopCodons.contains
        ((sequence.map pyUpper).drop ((sequence.map pyUpper).length - 3)) = true)) :
    preprocess_sequence sequence marker = (sequence.map pyUpper, true) := by
  unfold preprocess_sequence
  dsimp only
  rw [decide_eq_false hstart]
  simp only [Bool.false_eq_true, if_false]
  rw [decide_eq_false hstop]
  simp only [Bool.false_eq_true, if_false, hframe]
  simp

theorem claim_C5_witness :
    preprocess_sequence "AAATTT".toList "3" = ("AAATTT".toList, true) := by
  have h := claim_C5 "AAATTT".toList "3" (by decide) (by decide) (by decide)
  simpa using h

/-! ## Reaction-chaining structure -/

theorem length_insLe (le : α → α → Bool) (x : α) (l : List α) :
    (insLe le x l).length = l.length + 1 := by
  induction l with
  | nil => rfl
  | cons y ys ih =>
    simp only [insLe]
    split <;> simp [ih]

theorem length_pySort (le : α → α → Bool) (l : List α) :
    (pySort le l).length = l.length := by
  induction l with
  | nil => rfl
  | cons x xs ih => simp [pySort, length_insLe, ih]

/-- A reaction placeholder for out-of-range `getD` reads in statements. -/
def emptyReaction : PCRReaction :=
  { name := "", forward_primer := {}, reverse_primer := {}, amplicon_size := 0 }

/-- A dummy `Mutation`, used for placeholder primer pairs. -/
def emptyMutation : Mutation :=
  { mut_codons := [], mut_codons_context_start_idx := 0, mut_context := [],
    native_context := [], first_mut_idx := 0, last_mut_idx := 0,
    overhang_options := [], context_rs_indices := [], recognition_seq := [],
    enzyme := "" }

/-- A primer-pair placeholder for out-of-range `getD` reads. -/
def emptyPair : MutationPrimerPair :=
  { site := "", position := 0, forward := {}, reverse := {}, mutation := emptyMutation }

theorem chainAux_length (setIdx : Nat) (eRv : Primer) :
    ∀ (rest : List MutationPrimerPair) (num : Nat) (prev : MutationPrimerPair),
      (chainAux setIdx eRv num prev rest).length = rest.length + 1 := by
  intro rest
  induction rest with
  | nil => intro num prev; rfl
  | cons p rest' ih =>
    intro num prev
    simp only [chainAux, List.length_cons, ih]

theorem chainAux_getD (setIdx : Nat) (eRv : Primer) :
    ∀ (rest : List MutationPrimerPair) (num : Nat) (prev : MutationPrimerPair)
      (j : Nat), j ≤ rest.length →
      (chainAux setIdx eRv num prev rest).getD j emptyReaction =
        create_pcr_reaction (reactionLabel setIdx (num + j))
          ((prev :: rest).getD j emptyPair).forward
          (if j < rest.length then (rest.getD j emptyPair).reverse
           else eRv) := by
  intro rest
  induction rest with
  | nil =>
    intro num prev j hj
    have hj0 : j = 0 := Nat.le_zero.mp hj
    subst hj0
    simp [chainAux]
  | cons p rest' ih =>
    intro num prev j hj
    cases j with
    | zero =>
      simp [chainAux]
    | succ j' =>
      have hj' : j' ≤ rest'.length := by
        simpa using hj
      simp only [chainAux, List.getD_cons_succ]
      rw [ih (num + 1) p j' hj']
      have hnum : num + 1 + j' = num + (j' + 1) := by omega
      rw [hnum]
      by_cases hlt : j' < rest'.length
      · rw [if_pos hlt, if_pos (by simp only [List.length_cons]; omega)]
      · rw [if_neg hlt, if_neg (by simp only [List.length_cons]; omega)]

/-- The position-ordered pairs of a mutation primer set
(`sorted(mut_primer_pairs, key=lambda k: k.position)`). -/
def orderedPairs (mset : MutationPrimerSet) : List MutationPrimerPair :=
  pySort (fun a b => a.position ≤ b.position) mset.mut_primer_pairs

/-- C4 (amended): for a mutation primer set with `n ≥ 1` pairs,
`group_primers_into_pcr_reactions` builds exactly `n + 1` reactions:
reaction 1 pairs the edge-forward primer with the first (by position)
pair's reverse primer, reaction `j+1` pairs pair `j`'s forward primer
with pair `j+1`'s reverse primer, and the final reaction pairs the last
pair's forward primer with the edge-reverse primer.  Consecutive
reactions are joined through the same mutation pair — reaction `j`
carries pair `j`'s reverse primer and reaction `j+1` pair `j`'s forward
primer — but those are two different primers, so (contrary to the claim
as stated) no primer object is literally shared. -/
theorem claim_C4 (dr : DomesticationResult) (k : Nat)
    (hklt : k < dr.mut_primers.length)
    (hne : ¬ (dr.mut_primers.getD k ⟨[]⟩).mut_primer_pairs = []) :
    ∃ msr ∈ (group_primers_into_pcr_reactions dr).mutation_sets,
      msr.set_id = k ∧
      ∃ sol ∈ msr.solutions,
        sol.reactions.length =
          (orderedPairs (dr.mut_primers.getD k ⟨[]⟩)).length + 1 ∧
        (sol.reactions.getD 0 emptyReaction).forward_primer =
          dr.edge_primers.forward ∧
        (sol.reactions.getD (orderedPairs (dr.mut_primers.getD k ⟨[]⟩)).length
          emptyReaction).reverse_primer = dr.edge_primers.reverse ∧
        ∀ j, j < (orderedPairs (dr.mut_primers.getD k ⟨[]⟩)).length →
          (sol.reactions.getD j emptyReaction).reverse_primer =
            ((orderedPairs (dr.mut_primers.getD k ⟨[]⟩)).getD j emptyPair).reverse ∧
          (sol.reactions.getD (j + 1) emptyReaction).forward_primer =
            ((orderedPairs (dr.mut_primers.getD k ⟨[]⟩)).getD j emptyPair).forward := by
  have hdrne : ¬ dr.mut_primers = [] := by
    intro hnil
    rw [hnil] at hklt
    simp at hklt
  unfold group_primers_into_pcr_reactions
  dsimp only
  rw [if_neg hdrne]
  refine ⟨⟨k, [⟨0, chainReactionsFor k dr.edge_primers.forward
    dr.edge_primers.reverse (dr.mut_primers.getD k ⟨[]⟩).mut_primer_pairs⟩]⟩,
    ?_, rfl, ⟨0, chainReactionsFor k dr.edge_primers.forward
    dr.edge_primers.reverse (dr.mut_primers.getD k ⟨[]⟩).mut_primer_pairs⟩,
    List.mem_singleton.mpr rfl, ?_⟩
  · apply List.mem_map.mpr
    refine ⟨(k, dr.mut_primers.getD k ⟨[]⟩), ?_, rfl⟩
    have hk2 : k < dr.mut_primers.enum.length := by
      simpa using hklt
    have hval : dr.mut_primers.enum.get ⟨k, hk2⟩ =
        (k, dr.mut_primers.getD k ⟨[]⟩) := by
      simp [List.getD_eq_getElem?_getD, List.getElem?_eq_getElem hklt]
    rw [← hval]
    exact List.get_mem dr.mut_primers.enum k hk2
  · unfold chainReactionsFor
    rw [if_neg hne]
    cases hord : pySort (fun a b => a.position ≤ b.position)
        (dr.mut_primers.getD k ⟨[]⟩).mut_primer_pairs with
    | nil =>
      exfalso
      have := length_pySort (fun (a b : MutationPrimerPair) => a.position ≤ b.position)
        (dr.mut_primers.getD k ⟨[]⟩).mut_primer_pairs
      rw [hord] at this
      exact hne (List.eq_nil_of_length_eq_zero this.symm)
    | cons p0 restP =>
      have hordEq : orderedPairs (dr.mut_primers.getD k ⟨[]⟩) = p0 :: restP := by
        unfold orderedPairs
        exact hord
      rw [hordEq]
      refine ⟨?_, rfl, ?_, ?_⟩
      · simp [chainAux_length]
      · show ((create_pcr_reaction (reactionLabel k 1) dr.edge_primers.forward
            p0.reverse :: chainAux k dr.edge_primers.reverse 2 p0 restP).getD
            (restP.length + 1) emptyReaction).reverse_primer = dr.edge_primers.reverse
        rw [List.getD_cons_succ]
        rw [chainAux_getD k dr.edge_primers.reverse restP 2 p0 restP.length le_rfl]
        rw [if_neg (by omega)]
        rfl
      · intro j hj
        cases j with
        | zero =>
          constructor
          · rfl
          · show ((create_pcr_reaction (reactionLabel k 1) dr.edge_primers.forward
                p0.reverse :: chainAux k dr.edge_primers.reverse 2 p0 restP).getD 1
                emptyReaction).forward_primer = ((p0 :: restP).getD 0 emptyPair).forward
            rw [List.getD_cons_succ]
            rw [chainAux_getD k dr.edge_primers.reverse restP 2 p0 0 (Nat.zero_le _)]
            rfl
        | succ j' =>
          have hj' : j' < restP.length := by
            simpa using hj
          constructor
          · show ((create_pcr_reaction (reactionLabel k 1) dr.edge_primers.forward
                p0.reverse :: chainAux k dr.edge_primers.reverse 2 p0 restP).getD
                (j' + 1) emptyReaction).reverse_primer =
                ((p0 :: restP).getD (j' + 1) emptyPair).reverse
            rw [List.getD_cons_succ, List.getD_cons_succ]
            rw [chainAux_getD k dr.edge_primers.reverse restP 2 p0 j' (le_of_lt hj')]
            rw [if_pos hj']
            rfl
          · show ((create_pcr_reaction (reactionLabel k 1) dr.edge_primers.forward
                p0.reverse :: chainAux k dr.edge_primers.reverse 2 p0 restP).getD
                (j' + 1 + 1) emptyReaction).forward_primer =
                ((p0 :: restP).getD (j' + 1) emptyPair).forward
            rw [List.getD_cons_succ, List.getD_cons_succ]
            rw [chainAux_getD k dr.edge_primers.reverse restP 2 p0 (j' + 1)
              (by omega)]
            rfl

/-- The two primers of a PCR reaction. -/
def primersOf (r : PCRReaction) : List Primer :=
  [r.forward_primer, r.reverse_primer]

/-- A concrete domestication result with one mutation primer set of one
pair, all four primers distinct. -/
def c4primer (n : String) : Primer := { name := n }

def c4pair : MutationPrimerPair :=
  { site := "mutation_5", position := 5, forward := c4primer "F1",
    reverse := c4primer "R1", mutation := emptyMutation }

def c4dr : DomesticationResult :=
  { edge_primers := { forward := c4primer "EF", reverse := c4primer "ER" },
    mut_primers := [⟨[c4pair]⟩] }

/-- C4 (counterexample to the claim as stated): on a one-pair set with
four distinct primers the chaining yields the expected `n + 1 = 2`
reactions, but the two consecutive reactions share *no* primer — the
join is through the pair (its reverse primer in one reaction, its
forward primer in the next), never through one shared primer object. -/
theorem claim_C4_counterexample :
    ∃ msr ∈ (group_primers_into_pcr_reactions c4dr).mutation_sets,
    ∃ sol ∈ msr.solutions,
      sol.reactions.length = 1 + 1 ∧
      ∀ p ∈ primersOf (sol.reactions.getD 0 emptyReaction),
        ¬ p ∈ primersOf (sol.reactions.getD 1 emptyReaction) := by
  decide

theorem claim_C4_witness :
    ∃ msr ∈ (group_primers_into_pcr_reactions c4dr).mutation_sets,
      msr.set_id = 0 ∧
      ∃ sol ∈ msr.solutions,
        sol.reactions.length =
          (orderedPairs (c4dr.mut_primers.getD 0 ⟨[]⟩)).length + 1 ∧
        (sol.reactions.getD 0 emptyReaction).forward_primer =
          c4dr.edge_primers.forward ∧
        (sol.reactions.getD (orderedPairs (c4dr.mut_primers.getD 0 ⟨[]⟩)).length
          emptyReaction).reverse_primer = c4dr.edge_primers.reverse ∧
        ∀ j, j < (orderedPairs (c4dr.mut_primers.getD 0 ⟨[]⟩)).length →
          (sol.reactions.getD j emptyReaction).reverse_primer =
            ((orderedPairs (c4dr.mut_primers.getD 0 ⟨[]⟩)).getD j emptyPair).reverse ∧
          (sol.reactions.getD (j + 1) emptyReaction).forward_primer =
            ((orderedPairs (c4dr.mut_primers.getD 0 ⟨[]⟩)).getD j emptyPair).forward :=
  claim_C4 c4dr 0 (by decide) (by decide)

/-! ## Valid-coordinate structure for primer design -/

theorem mem_allCoords :
    ∀ {shape : List Nat} {c : List Nat}, c ∈ allCoords shape →
      c.length = shape.length ∧
      ∀ i, i < shape.length → c.getD i 0 < shape.getD i 0 := by
  intro shape
  induction shape with
  | nil =>
    intro c hc
    simp only [allCoords, List.mem_singleton] at hc
    subst hc
    exact ⟨rfl, by intro i hi; simp at hi⟩
  | cons d ds ih =>
    intro c hc
    simp only [allCoords, List.mem_flatMap, List.mem_map] at hc
    obtain ⟨i, hi, c', hc', rfl⟩ := hc
    have hid : i < d := List.mem_range.mp hi
    obtain ⟨hlen, hbound⟩ := ih hc'
    constructor
    · simp [hlen]
    · intro j hj
      cases j with
      | zero => simpa using hid
      | succ j' =>
        have : j' < ds.length := by simpa using hj
        simpa using hbound j' this

theorem mem_argwhereEq1 {A : NpArray} {c : List Nat} (hc : c ∈ argwhereEq1 A) :
    c.length = A.shape.length ∧
    ∀ i, i < A.shape.length → c.getD i 0 < A.shape.getD i 0 := by
  unfold argwhereEq1 at hc
  exact mem_allCoords (List.mem_filter.mp hc).1

theorem selectCoords_all {valid : List (List Nat)} {maxResults : Nat}
    {sel : List Nat}
    (hmr0 : ¬ maxResults = 0) (hmr : valid.length ≤ maxResults)
    (hlen : sel.length = valid.length) (hnd : sel.Nodup)
    (hbound : ∀ j ∈ sel, j < valid.length) :
    selectCoords valid maxResults sel =
      some (sel.map (fun j => valid.getD j [])) ∧
    (sel.map (fun j => valid.getD j [])).length = valid.length ∧
    (∀ c ∈ sel.map (fun j => valid.getD j []), c ∈ valid) ∧
    ∀ c ∈ valid, c ∈ sel.map (fun j => valid.getD j []) := by
  have hmin : min maxResults valid.length = valid.length :=
    Nat.min_eq_right hmr
  refine ⟨?_, by simp [hlen], ?_, ?_⟩
  · unfold selectCoords
    rw [if_neg hmr0, if_pos ⟨by rw [hmin, hlen], hnd, hbound⟩]
  · intro c hc
    rcases List.mem_map.mp hc with ⟨j, hj, rfl⟩
    rw [List.getD_eq_getElem _ _ (hbound j hj)]
    exact List.getElem_mem _
  · intro c hc
    have hsel_all : ∀ j, j < valid.length → j ∈ sel := by
      intro j hj
      have hsub : sel.toFinset ⊆ Finset.range valid.length := by
        intro x hx
        exact Finset.mem_range.mpr (hbound x (List.mem_toFinset.mp hx))
      have hcard : sel.toFinset.card = valid.length := by
        rw [List.toFinset_card_of_nodup hnd, hlen]
      have heq : sel.toFinset = Finset.range valid.length :=
        Finset.eq_of_subset_of_card_le hsub
          (by rw [hcard, Finset.card_range])
      have : j ∈ sel.toFinset := by
        rw [heq]
        exact Finset.mem_range.mpr hj
      exact List.mem_toFinset.mp this
    rcases List.getElem_of_mem hc with ⟨j, hj, hval⟩
    refine List.mem_map.mpr ⟨j, hsel_all j hj, ?_⟩
    rw [List.getD_eq_getElem _ _ hj]
    exact hval

theorem optMapList_success {f : α → Option β} {P : β → Prop} :
    ∀ {l : List α}, (∀ a ∈ l, ∃ b, f a = some b ∧ P b) →
      ∃ r, optMapList f l = some r ∧ r.length = l.length ∧ ∀ b ∈ r, P b := by
  intro l
  induction l with
  | nil =>
    intro _
    exact ⟨[], rfl, rfl, by intro b hb; simp at hb⟩
  | cons a as ih =>
    intro h
    obtain ⟨b, hb, hPb⟩ := h a (List.mem_cons_self a as)
    obtain ⟨r, hr, hrl, hPr⟩ := ih (fun a' ha' => h a' (List.mem_cons_of_mem a ha'))
    refine ⟨b :: r, ?_, by simp [hrl], ?_⟩
    · simp only [optMapList, hb, hr]
    · intro b' hb'
      rcases List.mem_cons.mp hb' with rfl | hb''
      · exact hPb
      · exact hPr b' hb''

theorem constructAux_success {primerName : String} {mutationSet : MutationSet}
    {coords : List Nat} :
    ∀ (keys : List String) (i : Nat),
      (∀ j, j < keys.length → ∃ mu selOv,
        lookupDict mutationSet.alt_codons (keys.getD j "") = some mu ∧
        coords.get? (i + j) = some selOv ∧
        selOv < mu.overhang_options.length) →
      ∃ pairs, constructAux primerName mutationSet coords i keys = some pairs ∧
        pairs.length = keys.length := by
  intro keys
  induction keys with
  | nil =>
    intro i _
    exact ⟨[], rfl, rfl⟩
  | cons key rest ih =>
    intro i h
    obtain ⟨mu, selOv, hlook, hcoord, hb⟩ := h 0 (by simp)
    have hrest : ∀ j, j < rest.length → ∃ mu selOv,
        lookupDict mutationSet.alt_codons (rest.getD j "") = some mu ∧
        coords.get? (i + 1 + j) = some selOv ∧
        selOv < mu.overhang_options.length := by
      intro j hj
      obtain ⟨mu', selOv', h1, h2, h3⟩ := h (j + 1) (by simpa using Nat.succ_lt_succ hj)
      refine ⟨mu', selOv', by simpa using h1, ?_, h3⟩
      rw [show i + 1 + j = i + (j + 1) by omega]
      exact h2
    obtain ⟨pairs, hpairs, hplen⟩ := ih (i + 1) hrest
    have hkey0 : (key :: rest).getD 0 "" = key := rfl
    rw [hkey0] at hlook
    have hcoord0 : coords.get? i = some selOv := by
      simpa using hcoord
    have hget : mu.overhang_options.get? selOv =
        some (mu.overhang_options.get ⟨selOv, hb⟩) := List.get?_eq_get hb
    obtain ⟨p, hp⟩ : ∃ p, constructPair primerName i key mu selOv = some p := by
      unfold constructPair
      rw [hget]
      exact ⟨_, rfl⟩
    refine ⟨p :: pairs, ?_, by simp [hplen]⟩
    simp only [constructAux, hlook, hcoord0, hp, hpairs]

/-- C7: with result-count policy `"all"` and a compatibility matrix
holding exactly `k ≥ 1` cells equal to 1, `design_mutation_primers`
processes every one of the `k` valid coordinate tuples of the set (the
random draw is a permutation) and produces exactly `k` primer-pair
groups — one per tuple, each with one pair per restriction site — never
fewer.  Hypotheses state the §3 matrix invariant (one axis per site,
sized by that site's overhang-option count) and the semantics of
`np.random.choice(k, k, replace=False)`. -/
theorem claim_C7 (rsKeys : List String) (primerName : String) (s : MutationSet)
    (sel : List Nat) (k : Nat)
    (hkeys : ¬ rsKeys = [])
    (hk : (argwhereEq1 s.compatibility).length = k)
    (hk1 : 1 ≤ k)
    (hshape : s.compatibility.shape.length = rsKeys.length)
    (hmuts : ∀ i, i < rsKeys.length → ∃ mu,
      lookupDict s.alt_codons (rsKeys.getD i "") = some mu ∧
      s.compatibility.shape.getD i 0 ≤ mu.overhang_options.length)
    (hsellen : sel.length = k) (hselnd : sel.Nodup)
    (hselb : ∀ j ∈ sel, j < k) :
    ∃ groups, processSet rsKeys primerName k s sel = some groups ∧
      groups.length = k ∧
      (∀ g ∈ groups, g.length = rsKeys.length) ∧
      (∀ c ∈ argwhereEq1 s.compatibility,
        c ∈ sel.map (fun j => (argwhereEq1 s.compatibility).getD j [])) ∧
      groups.flatten.length = k * rsKeys.length ∧
      design_mutation_primers ⟨rsKeys, [s]⟩ primerName "all" [sel] =
        some (some [⟨groups.flatten⟩]) := by
  subst hk
  set V := argwhereEq1 s.compatibility with hV
  -- every valid coordinate yields a full primer-pair group
  have hconstruct : ∀ c ∈ V, ∃ pairs,
      construct_mutation_primer_set rsKeys s c primerName = some pairs ∧
      pairs.length = rsKeys.length := by
    intro c hc
    obtain ⟨hclen, hcb⟩ := mem_argwhereEq1 hc
    apply constructAux_success
    intro j hj
    obtain ⟨mu, hlook, hopt⟩ := hmuts j hj
    have hjc : j < c.length := by omega
    refine ⟨mu, c.getD j 0, hlook, ?_, ?_⟩
    · rw [Nat.zero_add, List.getD_eq_getElem _ _ hjc]
      exact List.get?_eq_get hjc
    · have := hcb j (by omega)
      omega
  have hsel' := @selectCoords_all V V.length sel (by omega) le_rfl hsellen hselnd hselb
  obtain ⟨hselEq, hselLen, hselSub, hselCover⟩ := hsel'
  obtain ⟨groups, hgroups, hglen, hgall⟩ :=
    @optMapList_success _ _ (fun c => construct_mutation_primer_set rsKeys s c primerName)
      (fun pairs => pairs.length = rsKeys.length)
      (sel.map (fun j => V.getD j []))
      (fun c hc => hconstruct c (hselSub c hc))
  have hproc : processSet rsKeys primerName V.length s sel = some groups := by
    unfold processSet
    rw [← hV, hselEq]
    dsimp only
    exact hgroups
  have hflatlen : groups.flatten.length = V.length * rsKeys.length := by
    rw [List.length_flatten]
    have hrep : groups.map List.length =
        List.replicate (groups.map List.length).length rsKeys.length := by
      apply List.eq_replicate_of_mem
      intro b hb
      rcases List.mem_map.mp hb with ⟨g, hg, rfl⟩
      exact hgall g hg
    rw [hrep, List.sum_replicate, List.length_map, hglen, hselLen, smul_eq_mul]
  have hflat_ne : ¬ groups.flatten = [] := by
    intro hnil
    have := hflatlen
    rw [hnil] at this
    simp only [List.length_nil] at this
    have h1 : 0 < V.length := by omega
    have h2 : 0 < rsKeys.length := List.length_pos.mpr hkeys
    have := Nat.mul_pos h1 h2
    omega
  refine ⟨groups, hproc, by rw [hglen, hselLen], hgall, hselCover, hflatlen, ?_⟩
  unfold design_mutation_primers
  dsimp only
  have hmr : resultMapping "all" rsKeys.length
      ((List.map (fun t => (argwhereEq1 t.compatibility).length) [s]).sum) =
      V.length := by
    have hsum : (List.map (fun t => (argwhereEq1 t.compatibility).length) [s]).sum =
        V.length := by
      simp [hV]
    rw [hsum]
    rfl
  rw [hmr]
  rw [show ([s].zip [sel]) = [(s, sel)] from rfl]
  have hdaux : designAux rsKeys primerName V.length [(s, sel)] =
      some [⟨groups.flatten⟩] := by
    simp only [designAux, hproc]
    rw [if_neg hflat_ne]
  rw [hdaux]
  dsimp only
  rw [if_neg (by simp : ¬ ([⟨groups.flatten⟩] : List MutationPrimerSet) = [])]

/-- A concrete one-site mutation set with three overhang options and an
all-ones `1 × 3` compatibility matrix (three valid coordinate tuples). -/
def c7mut : Mutation :=
  { mut_codons := [], mut_codons_context_start_idx := 0,
    mut_context := "GGGGGGGGGGGGGGGGGGGGCCCCCCCCCCCCCCCCCCCC".toList,
    native_context := [], first_mut_idx := 20, last_mut_idx := 20,
    overhang_options := [⟨"CCCC".toList, "GGGG".toList, 17⟩,
      ⟨"CCCC".toList, "GGGG".toList, 18⟩, ⟨"GGCC".toList, "GGCC".toList, 19⟩],
    context_rs_indices := [], recognition_seq := [], enzyme := "BsmBI" }

def c7set : MutationSet :=
  { alt_codons := [("mutation_5", c7mut)],
    compatibility := { shape := [3], data := [1, 1, 1] } }

theorem claim_C7_witness :
    ∃ groups, processSet ["mutation_5"] "" 3 c7set [2, 0, 1] = some groups ∧
      groups.length = 3 ∧
      (∀ g ∈ groups, g.length = (["mutation_5"] : List String).length) ∧
      (∀ c ∈ argwhereEq1 c7set.compatibility,
        c ∈ ([2, 0, 1] : List Nat).map
          (fun j => (argwhereEq1 c7set.compatibility).getD j [])) ∧
      groups.flatten.length = 3 * (["mutation_5"] : List String).length ∧
      design_mutation_primers ⟨["mutation_5"], [c7set]⟩ "" "all" [[2, 0, 1]] =
        some (some [⟨groups.flatten⟩]) :=
  claim_C7 ["mutation_5"] "" c7set [2, 0, 1] 3 (by decide) (by decide)
    (by decide) (by decide)
    (by
      intro i hi
      have hi0 : i = 0 := by
        simp only [List.length_singleton] at hi
        omega
      subst hi0
      exact ⟨c7mut, rfl, by decide⟩)
    (by decide) (by decide) (by decide)
